import Mathlib

/-!
Verification of the day08 incremental connectivity / clustering engine:
3D junction boxes, a k-closest-pairs selector, a union-find based
`CircuitManager` (path compression, union by rank), and the driver loop
that finds the first pair completing full connectivity.

Python dictionaries are embedded as association lists in insertion order
(updating an existing key keeps its position, a new key is appended),
which matches CPython dict semantics.  `heapq.nsmallest(n, it, key)` is
embedded by its documented semantics `sorted(it, key=key)[:n]` with a
stable sort, and `heapq.nlargest(n, it)` by `sorted(it, reverse=True)[:n]`.
Both are realised with `List.insertionSort`, which is a stable sort.
-/

/-- JunctionBox: an immutable 3D integer coordinate triple. -/
structure JunctionBox where
  x : Int
  y : Int
  z : Int
deriving DecidableEq, Repr

namespace JunctionBox

/-- Squared Euclidean distance between two junction boxes, as in the source. -/
def distance_squared (self other : JunctionBox) : Int :=
  let dx := other.x - self.x
  let dy := other.y - self.y
  let dz := other.z - self.z
  dx * dx + dy * dy + dz * dz

end JunctionBox

/-- Association-list lookup, first binding wins (CPython dict lookup). -/
def lookupA {α : Type} : List (JunctionBox × α) → JunctionBox → Option α
  | [], _ => none
  | (k, v) :: t, b => if k = b then some v else lookupA t b

/-- Association-list update: replace the binding of an existing key in
place, or append a new binding (CPython dict assignment). -/
def updA {α : Type} : List (JunctionBox × α) → JunctionBox → α → List (JunctionBox × α)
  | [], b, v => [(b, v)]
  | (k, w) :: t, b, v => if k = b then (b, v) :: t else (k, w) :: updA t b v

/-- CircuitManager state: the union-find parent map and the rank map. -/
structure CircuitManager where
  parent : List (JunctionBox × JunctionBox)
  rank : List (JunctionBox × Nat)
deriving DecidableEq, Repr

/-- A freshly constructed, empty CircuitManager. -/
def emptyCM : CircuitManager := ⟨[], []⟩

namespace CircuitManager

/-- Keys of the parent map: the boxes registered with the partition. -/
def pkeys (s : CircuitManager) : List JunctionBox := s.parent.map Prod.fst

/-- Rank of a box (0 when absent; in well-formed states every registered
box has a rank entry, and the source only reads ranks of registered roots). -/
def rnk (s : CircuitManager) (b : JunctionBox) : Nat := (lookupA s.rank b).getD 0

/-- Fuel-indexed body of `_find`.  The real `_find` recurses along parent
links; in every well-formed state the chain length is below the number of
registered boxes, so fuel `s.parent.length + 1` never runs out. -/
def findAux : Nat → CircuitManager → JunctionBox → JunctionBox × CircuitManager
  | 0, s, b => (b, s)
  | fuel + 1, s, b =>
    match lookupA s.parent b with
    | none => (b, ⟨updA s.parent b b, updA s.rank b 0⟩)
    | some p =>
      if p = b then (b, s)
      else
        let res := findAux fuel s p
        (res.1, ⟨updA res.2.parent b res.1, res.2.rank⟩)

/-- The source's `_find`: root of the circuit containing `b`, registering
`b` as a fresh singleton when unseen, with path compression. -/
def find (s : CircuitManager) (b : JunctionBox) : JunctionBox × CircuitManager :=
  findAux (s.parent.length + 1) s b

/-- The source's `_union`: merge the circuits of `box1` and `box2` by rank.
Returns whether a merge actually occurred, together with the new state. -/
def union (s : CircuitManager) (box1 box2 : JunctionBox) : Bool × CircuitManager :=
  let f1 := s.find box1
  let f2 := f1.2.find box2
  let root1 := f1.1
  let root2 := f2.1
  let s2 := f2.2
  if root1 = root2 then (false, s2)
  else if s2.rnk root1 < s2.rnk root2 then
    (true, ⟨updA s2.parent root1 root2, s2.rank⟩)
  else if s2.rnk root2 < s2.rnk root1 then
    (true, ⟨updA s2.parent root2 root1, s2.rank⟩)
  else
    (true, ⟨updA s2.parent root2 root1, updA s2.rank root1 (s2.rnk root1 + 1)⟩)

/-- Apply a list of `_union` calls in order (states reachable this way from
`emptyCM` are exactly the partition states the program can produce). -/
def applyUnions (ops : List (JunctionBox × JunctionBox)) (s : CircuitManager) : CircuitManager :=
  ops.foldl (fun t op => (t.union op.1 op.2).2) s

/-- The source's `add_pairs`: union every pair, counting actual merges. -/
def add_pairs (s : CircuitManager) :
    List ((JunctionBox × JunctionBox) × Int) → Nat × CircuitManager
  | [] => (0, s)
  | (pr, _) :: rest =>
    let u := s.union pr.1 pr.2
    let r := u.2.add_pairs rest
    (r.1 + (if u.1 then 1 else 0), r.2)

end CircuitManager

/-- Loop of `are_all_boxes_connected` over `all_boxes[1:]`: compare each
box's root with the first box's root, stopping at the first mismatch. -/
def connCheck (first_root : JunctionBox) :
    List JunctionBox → CircuitManager → Bool × CircuitManager
  | [], s => (true, s)
  | b :: rest, s =>
    let f := s.find b
    if f.1 = first_root then connCheck first_root rest f.2 else (false, f.2)

namespace CircuitManager

/-- The source's `are_all_boxes_connected`: empty and singleton lists are
trivially connected; otherwise every listed box must already be registered
and all must share the first box's root. -/
def are_all_boxes_connected (s : CircuitManager) (all_boxes : List JunctionBox) :
    Bool × CircuitManager :=
  match all_boxes with
  | [] => (true, s)
  | [_] => (true, s)
  | b0 :: rest =>
    if (b0 :: rest).any (fun b => (lookupA s.parent b).isNone) then (false, s)
    else
      let f0 := s.find b0
      connCheck f0.1 rest f0.2

end CircuitManager

/-- Insert a box into the group of its root, appending a fresh group when
the root is new (the `circuits_dict` accumulation of `get_circuits`). -/
def addToGroup : List (JunctionBox × List JunctionBox) → JunctionBox → JunctionBox →
    List (JunctionBox × List JunctionBox)
  | [], r, b => [(r, [b])]
  | (r', c) :: t, r, b =>
    if r' = r then (r', c ++ [b]) :: t else (r', c) :: addToGroup t r b

/-- Iteration of `get_circuits` over the registered boxes, grouping each
box under its root (threading the path-compression state of the finds). -/
def groupLoop : List JunctionBox → CircuitManager → List (JunctionBox × List JunctionBox) →
    List (JunctionBox × List JunctionBox) × CircuitManager
  | [], s, acc => (acc, s)
  | b :: rest, s, acc =>
    let f := s.find b
    groupLoop rest f.2 (addToGroup acc f.1 b)

namespace CircuitManager

/-- The source's `get_circuits`: the current partition as a list of
circuits, one per distinct root among the registered boxes. -/
def get_circuits (s : CircuitManager) : List (List JunctionBox) × CircuitManager :=
  let g := groupLoop s.pkeys s []
  (g.1.map Prod.snd, g.2)

/-- The source's `get_top_3_circuit_lengths`: sizes of the three biggest
circuits, descending (`heapq.nlargest 3` = descending sort, take 3). -/
def get_top_3_circuit_lengths (s : CircuitManager) : List Nat × CircuitManager :=
  let g := s.get_circuits
  if g.1 = [] then ([], g.2)
  else (((g.1.map List.length).insertionSort (fun a b => b ≤ a)).take 3, g.2)

end CircuitManager

/-- All unordered pairs of the input boxes in the generator's `i < j`
order, each with its squared distance. -/
def pairsFrom : List JunctionBox → List (Int × (JunctionBox × JunctionBox))
  | [] => []
  | b :: rest => rest.map (fun c => (b.distance_squared c, (b, c))) ++ pairsFrom rest

/-- The source's `find_closest_pairs`: the `n` candidate pairs of smallest
squared distance, ascending (`heapq.nsmallest` = stable sort by the
distance key, take `n`), as `((box1, box2), distance_squared)` tuples. -/
def find_closest_pairs (junction_boxes : List JunctionBox) (n : Int) :
    List ((JunctionBox × JunctionBox) × Int) :=
  if junction_boxes.length < 2 then []
  else if n ≤ 0 then []
  else
    (((pairsFrom junction_boxes).insertionSort (fun p q => p.1 ≤ q.1)).take n.toNat).map
      (fun dp => (dp.2, dp.1))

/-- Driver loop of the `__main__` block: for each selected pair, query
connectivity, union the pair, query again, and report the pair at the
first False-to-True transition (breaking out of the loop there); `none`
when the pair stream is exhausted first. -/
def connLoop (boxes : List JunctionBox) :
    List ((JunctionBox × JunctionBox) × Int) → CircuitManager →
    Option ((JunctionBox × JunctionBox) × Int)
  | [], _ => none
  | (pr, d) :: rest, s =>
    let before := s.are_all_boxes_connected boxes
    let s2 := (before.2.union pr.1 pr.2).2
    let after := s2.are_all_boxes_connected boxes
    if !before.1 && after.1 then some (pr, d) else connLoop boxes rest after.2

/-- Pure, mutation-free root resolution along parent links, fuel-indexed. -/
def rootD (s : CircuitManager) : Nat → JunctionBox → JunctionBox
  | 0, b => b
  | n + 1, b =>
    match lookupA s.parent b with
    | none => b
    | some p => if p = b then b else rootD s n p

namespace CircuitManager

/-- Root that `_find` resolves for `b`, as a pure function of the state
(a box absent from the partition is its own root). -/
def rootOf (s : CircuitManager) (b : JunctionBox) : JunctionBox :=
  rootD s (s.parent.length + 1) b

/-- Termination measure for parent chains: how many registered boxes have
strictly larger rank than `b` (ranks strictly increase along chains). -/
def meas (s : CircuitManager) (b : JunctionBox) : Nat :=
  (s.pkeys.toFinset.filter (fun k => s.rnk b < s.rnk k)).card

end CircuitManager

/-- Well-formedness invariant of CircuitManager states: registered boxes
are distinct, the rank map covers exactly the registered boxes, parent
values are registered, and rank strictly increases along non-self parent
links.  Every state the program reaches from a fresh manager satisfies it. -/
def WF (s : CircuitManager) : Prop :=
  s.pkeys.Nodup ∧
  s.rank.map Prod.fst = s.pkeys ∧
  (∀ p ∈ s.parent, p.2 ∈ s.pkeys) ∧
  (∀ p ∈ s.parent, p.2 ≠ p.1 → s.rnk p.1 < s.rnk p.2)

instance (s : CircuitManager) : Decidable (WF s) := by
  unfold WF
  infer_instance

/-- Pure connectivity value of a state on a point list: empty and
singleton lists are connected; otherwise all listed boxes must be
registered and resolve to the root of the first box. -/
def connB (s : CircuitManager) (bs : List JunctionBox) : Bool :=
  match bs with
  | [] => true
  | [_] => true
  | b0 :: rest =>
    (b0 :: rest).all (fun b => (lookupA s.parent b).isSome) &&
      rest.all (fun b => decide (s.rootOf b = s.rootOf b0))

/-- Specification of the driver loop: scanning the pairs in order while
threading only the union state, return the first pair whose union changes
the connectivity value from false to true; `none` when the stream is
exhausted before that happens. -/
def firstCompleting (bs : List JunctionBox) :
    List ((JunctionBox × JunctionBox) × Int) → CircuitManager →
    Option ((JunctionBox × JunctionBox) × Int)
  | [], _ => none
  | (pr, d) :: rest, s =>
    let s' := (s.union pr.1 pr.2).2
    if !connB s bs && connB s' bs then some (pr, d) else firstCompleting bs rest s'

/-- Key list of the parent map after `_union a b`: `a` then `b` are
registered (appended) when not yet present, in that order. -/
def unionKeys (ks : List JunctionBox) (a b : JunctionBox) : List JunctionBox :=
  let k1 := if a ∈ ks then ks else ks ++ [a]
  if b ∈ k1 then k1 else k1 ++ [b]

/-- Rank list after the two `_find` calls inside `_union a b`: fresh boxes
get rank 0 appended, in the order `a` then `b`. -/
def regRank (ks : List JunctionBox) (R : List (JunctionBox × Nat)) (a b : JunctionBox) :
    List (JunctionBox × Nat) :=
  let R1 := if a ∈ ks then R else updA R a 0
  let k1 := if a ∈ ks then ks else ks ++ [a]
  if b ∈ k1 then R1 else updA R1 b 0

/-- Rank list after `_union a b`, as a function of the prior keys, rank
list and the two roots `r1 = rootOf a`, `r2 = rootOf b`. -/
def unionRank (ks : List JunctionBox) (R : List (JunctionBox × Nat)) (r1 r2 a b : JunctionBox) :
    List (JunctionBox × Nat) :=
  let R2 := regRank ks R a b
  if r1 = r2 then R2
  else if (lookupA R2 r1).getD 0 < (lookupA R2 r2).getD 0 then R2
  else if (lookupA R2 r2).getD 0 < (lookupA R2 r1).getD 0 then R2
  else updA R2 r1 ((lookupA R2 r1).getD 0 + 1)

/-- Root map after `_union a b`: how the root of any box is renamed by the
merge, as a function of the prior state data and the two roots. -/
def unionRoot (ks : List JunctionBox) (R : List (JunctionBox × Nat)) (r1 r2 a b : JunctionBox)
    (r : JunctionBox) : JunctionBox :=
  let R2 := regRank ks R a b
  if r1 = r2 then r
  else if (lookupA R2 r1).getD 0 < (lookupA R2 r2).getD 0 then (if r = r1 then r2 else r)
  else if r = r2 then r1 else r

instance : IsTotal (Int × (JunctionBox × JunctionBox)) (fun p q => p.1 ≤ q.1) :=
  ⟨fun a b => le_total a.1 b.1⟩

instance : IsTrans (Int × (JunctionBox × JunctionBox)) (fun p q => p.1 ≤ q.1) :=
  ⟨fun _ _ _ h1 h2 => le_trans h1 h2⟩

instance : IsTotal Nat (fun a b => b ≤ a) := ⟨fun a b => le_total b a⟩

instance : IsTrans Nat (fun a b => b ≤ a) := ⟨fun _ _ _ h1 h2 => le_trans h2 h1⟩

/-- Observational equivalence of two partition states: same registered
keys, same rank list, and the same resolved root for every box.  Path
compression changes a state only up to this equivalence. -/
def StEq (u v : CircuitManager) : Prop :=
  u.pkeys = v.pkeys ∧ u.rank = v.rank ∧ ∀ x, u.rootOf x = v.rootOf x

/-! ### Association-list lemmas -/

theorem lookupA_eq_none {α : Type} (l : List (JunctionBox × α)) (b : JunctionBox) :
    lookupA l b = none ↔ b ∉ l.map Prod.fst := by
  induction l with
  | nil => simp [lookupA]
  | cons p t ih =>
    obtain ⟨k, v⟩ := p
    by_cases h : k = b
    · subst h
      simp [lookupA]
    · simp only [lookupA, if_neg h, List.map_cons, List.mem_cons, ih]
      constructor
      · intro hb hc
        rcases hc with hc | hc
        · exact h hc.symm
        · exact hb hc
      · intro hb
        exact fun hc => hb (Or.inr hc)

theorem lookupA_isSome {α : Type} (l : List (JunctionBox × α)) (b : JunctionBox) :
    (lookupA l b).isSome ↔ b ∈ l.map Prod.fst := by
  by_cases h : b ∈ l.map Prod.fst
  · simp only [h, iff_true]
    cases hl : lookupA l b with
    | none => exact absurd ((lookupA_eq_none l b).mp hl) (by simpa using h)
    | some v => rfl
  · simp only [h, iff_false]
    rw [(lookupA_eq_none l b).mpr h]
    simp

theorem lookupA_mem {α : Type} {l : List (JunctionBox × α)} {b : JunctionBox} {v : α}
    (h : lookupA l b = some v) : (b, v) ∈ l := by
  induction l with
  | nil => simp [lookupA] at h
  | cons p t ih =>
    obtain ⟨k, w⟩ := p
    by_cases hk : k = b
    · simp only [lookupA, if_pos hk] at h
      subst hk
      injection h with h
      subst h
      exact List.mem_cons_self _ _
    · simp only [lookupA, if_neg hk] at h
      exact List.mem_cons_of_mem _ (ih h)

theorem mem_lookupA {α : Type} {l : List (JunctionBox × α)} {b : JunctionBox} {v : α}
    (hnd : (l.map Prod.fst).Nodup) (h : (b, v) ∈ l) : lookupA l b = some v := by
  induction l with
  | nil => simp at h
  | cons p t ih =>
    obtain ⟨k, w⟩ := p
    simp only [List.map_cons, List.nodup_cons] at hnd
    rcases List.mem_cons.mp h with h1 | h2
    · have hk : k = b := (congrArg Prod.fst h1).symm
      have hv : w = v := (congrArg Prod.snd h1).symm
      subst hk
      subst hv
      simp [lookupA]
    · have hk : k ≠ b := by
        rintro rfl
        exact hnd.1 (List.mem_map_of_mem Prod.fst h2)
      simp only [lookupA, if_neg hk]
      exact ih hnd.2 h2

theorem lookupA_updA_self {α : Type} (l : List (JunctionBox × α)) (b : JunctionBox) (v : α) :
    lookupA (updA l b v) b = some v := by
  induction l with
  | nil => simp [updA, lookupA]
  | cons p t ih =>
    obtain ⟨k, w⟩ := p
    by_cases h : k = b <;> simp [updA, lookupA, h, ih]

theorem lookupA_updA_ne {α : Type} (l : List (JunctionBox × α)) (b k : JunctionBox) (v : α)
    (h : k ≠ b) : lookupA (updA l b v) k = lookupA l k := by
  have hbk : b ≠ k := Ne.symm h
  induction l with
  | nil => simp [updA, lookupA, hbk]
  | cons p t ih =>
    obtain ⟨k', w⟩ := p
    by_cases h' : k' = b
    · subst h'
      simp [updA, lookupA, hbk]
    · simp only [updA, if_neg h']
      by_cases h'' : k' = k
      · simp [lookupA, h'']
      · simp [lookupA, h'', ih]

theorem map_fst_updA_mem {α : Type} (l : List (JunctionBox × α)) (b : JunctionBox) (v : α)
    (h : b ∈ l.map Prod.fst) : (updA l b v).map Prod.fst = l.map Prod.fst := by
  induction l with
  | nil => simp at h
  | cons p t ih =>
    obtain ⟨k, w⟩ := p
    by_cases hk : k = b
    · simp [updA, hk]
    · simp only [List.map_cons] at h
      rcases List.mem_cons.mp h with h1 | h2
      · exact absurd h1.symm hk
      · simp [updA, hk, ih h2]

theorem map_fst_updA_not_mem {α : Type} (l : List (JunctionBox × α)) (b : JunctionBox) (v : α)
    (h : b ∉ l.map Prod.fst) : (updA l b v).map Prod.fst = l.map Prod.fst ++ [b] := by
  induction l with
  | nil => simp [updA]
  | cons p t ih =>
    obtain ⟨k, w⟩ := p
    simp only [List.map_cons, List.mem_cons] at h
    push_neg at h
    simp [updA, Ne.symm h.1, ih h.2]

theorem mem_updA {α : Type} {l : List (JunctionBox × α)} {b : JunctionBox} {v : α}
    {p : JunctionBox × α} (h : p ∈ updA l b v) : p = (b, v) ∨ p ∈ l := by
  induction l with
  | nil => simpa [updA] using h
  | cons q t ih =>
    obtain ⟨k, w⟩ := q
    by_cases hk : k = b
    · simp only [updA, if_pos hk] at h
      rcases List.mem_cons.mp h with h1 | h2
      · exact Or.inl h1
      · exact Or.inr (List.mem_cons_of_mem _ h2)
    · simp only [updA, if_neg hk] at h
      rcases List.mem_cons.mp h with h1 | h2
      · exact Or.inr (h1 ▸ List.mem_cons_self _ _)
      · rcases ih h2 with h3 | h4
        · exact Or.inl h3
        · exact Or.inr (List.mem_cons_of_mem _ h4)

/-! ### Measure and pure-root lemmas -/

theorem meas_le (s : CircuitManager) (b : JunctionBox) : s.meas b ≤ s.parent.length := by
  calc (s.pkeys.toFinset.filter (fun k => s.rnk b < s.rnk k)).card
      ≤ s.pkeys.toFinset.card := Finset.card_filter_le _ _
    _ ≤ s.pkeys.length := s.pkeys.toFinset_card_le
    _ = s.parent.length := by simp [CircuitManager.pkeys]

theorem meas_lt {s : CircuitManager} {b p : JunctionBox}
    (hwf : WF s) (hbp : lookupA s.parent b = some p) (hne : p ≠ b) :
    s.meas p < s.meas b := by
  have hmem : (b, p) ∈ s.parent := lookupA_mem hbp
  have hrk : s.rnk b < s.rnk p := hwf.2.2.2 (b, p) hmem hne
  have hpk : p ∈ s.pkeys := hwf.2.2.1 (b, p) hmem
  apply Finset.card_lt_card
  rw [Finset.ssubset_def]
  constructor
  · intro k hk
    simp only [Finset.mem_filter] at hk ⊢
    exact ⟨hk.1, lt_trans hrk hk.2⟩
  · intro hsub
    have hp : p ∈ s.pkeys.toFinset.filter (fun k => s.rnk p < s.rnk k) := by
      apply hsub
      simp only [Finset.mem_filter, List.mem_toFinset]
      exact ⟨hpk, hrk⟩
    simp only [Finset.mem_filter] at hp
    exact absurd hp.2 (lt_irrefl _)

theorem meas_eq_of {s t : CircuitManager} (h1 : t.pkeys = s.pkeys) (h2 : t.rank = s.rank)
    (x : JunctionBox) : t.meas x = s.meas x := by
  simp [CircuitManager.meas, CircuitManager.rnk, h1, h2]

theorem rootD_stable {s : CircuitManager} (hwf : WF s) :
    ∀ (n n' : Nat) (b : JunctionBox), s.meas b < n → s.meas b < n' →
      rootD s n b = rootD s n' b := by
  intro n
  induction n with
  | zero => intro n' b hb; exact absurd hb (Nat.not_lt_zero _)
  | succ n ih =>
    intro n' b hb hb'
    cases n' with
    | zero => exact absurd hb' (Nat.not_lt_zero _)
    | succ n' =>
      cases hl : lookupA s.parent b with
      | none => simp [rootD, hl]
      | some p =>
        by_cases hp : p = b
        · simp [rootD, hl, hp]
        · have hm : s.meas p < s.meas b := meas_lt hwf hl hp
          simp only [rootD, hl, if_neg hp]
          exact ih n' p (by omega) (by omega)

theorem rootOf_absent {s : CircuitManager} {b : JunctionBox}
    (h : lookupA s.parent b = none) : s.rootOf b = b := by
  simp [CircuitManager.rootOf, rootD, h]

theorem rootOf_self {s : CircuitManager} {b : JunctionBox}
    (h : lookupA s.parent b = some b) : s.rootOf b = b := by
  simp [CircuitManager.rootOf, rootD, h]

theorem rootD_self {s : CircuitManager} {b : JunctionBox}
    (h : lookupA s.parent b = some b) : ∀ n, 1 ≤ n → rootD s n b = b := by
  intro n hn
  cases n with
  | zero => exact absurd hn (by omega)
  | succ n => simp [rootD, h]

theorem rootOf_step {s : CircuitManager} (hwf : WF s) {b p : JunctionBox}
    (h : lookupA s.parent b = some p) (hp : p ≠ b) : s.rootOf b = s.rootOf p := by
  have hm := meas_lt hwf h hp
  have hb := meas_le s b
  have e1 : s.rootOf b = rootD s s.parent.length p := by
    simp [CircuitManager.rootOf, rootD, h, hp]
  rw [e1]
  exact rootD_stable hwf _ _ p (by omega) (by omega)

theorem rootOf_fix_aux {s : CircuitManager} (hwf : WF s) :
    ∀ (n : Nat) (b : JunctionBox), s.meas b < n →
      lookupA s.parent (s.rootOf b) = none ∨
        lookupA s.parent (s.rootOf b) = some (s.rootOf b) := by
  intro n
  induction n with
  | zero => intro b hb; exact absurd hb (Nat.not_lt_zero _)
  | succ n ih =>
    intro b hb
    cases hl : lookupA s.parent b with
    | none => rw [rootOf_absent hl]; exact Or.inl hl
    | some p =>
      by_cases hp : p = b
      · subst hp
        rw [rootOf_self hl]
        exact Or.inr hl
      · rw [rootOf_step hwf hl hp]
        exact ih p (by have := meas_lt hwf hl hp; omega)

theorem rootOf_fix {s : CircuitManager} (hwf : WF s) (b : JunctionBox) :
    lookupA s.parent (s.rootOf b) = none ∨
      lookupA s.parent (s.rootOf b) = some (s.rootOf b) :=
  rootOf_fix_aux hwf (s.meas b + 1) b (Nat.lt_succ_self _)

theorem rootOf_mem_aux {s : CircuitManager} (hwf : WF s) :
    ∀ (n : Nat) (b : JunctionBox), s.meas b < n → b ∈ s.pkeys → s.rootOf b ∈ s.pkeys := by
  intro n
  induction n with
  | zero => intro b hb; exact absurd hb (Nat.not_lt_zero _)
  | succ n ih =>
    intro b hb hmem
    cases hl : lookupA s.parent b with
    | none => exact absurd hmem ((lookupA_eq_none _ _).mp hl)
    | some p =>
      by_cases hp : p = b
      · subst hp; rw [rootOf_self hl]; exact hmem
      · rw [rootOf_step hwf hl hp]
        exact ih p (by have := meas_lt hwf hl hp; omega) (hwf.2.2.1 (b, p) (lookupA_mem hl))

theorem rootOf_mem {s : CircuitManager} (hwf : WF s) {b : JunctionBox}
    (hmem : b ∈ s.pkeys) : s.rootOf b ∈ s.pkeys :=
  rootOf_mem_aux hwf (s.meas b + 1) b (Nat.lt_succ_self _) hmem

theorem rootOf_root_self {s : CircuitManager} (hwf : WF s) {b : JunctionBox}
    (hmem : b ∈ s.pkeys) : lookupA s.parent (s.rootOf b) = some (s.rootOf b) := by
  rcases rootOf_fix hwf b with h | h
  · exact absurd (rootOf_mem hwf hmem) ((lookupA_eq_none _ _).mp h)
  · exact h

theorem rnk_le_rootOf_aux {s : CircuitManager} (hwf : WF s) :
    ∀ (n : Nat) (b : JunctionBox), s.meas b < n → s.rnk b ≤ s.rnk (s.rootOf b) := by
  intro n
  induction n with
  | zero => intro b hb; exact absurd hb (Nat.not_lt_zero _)
  | succ n ih =>
    intro b hb
    cases hl : lookupA s.parent b with
    | none => rw [rootOf_absent hl]
    | some p =>
      by_cases hp : p = b
      · subst hp; rw [rootOf_self hl]
      · rw [rootOf_step hwf hl hp]
        have h1 : s.rnk b < s.rnk p := hwf.2.2.2 (b, p) (lookupA_mem hl) hp
        have h2 : s.rnk p ≤ s.rnk (s.rootOf p) :=
          ih p (by have := meas_lt hwf hl hp; omega)
        omega

theorem rnk_le_rootOf {s : CircuitManager} (hwf : WF s) (b : JunctionBox) :
    s.rnk b ≤ s.rnk (s.rootOf b) :=
  rnk_le_rootOf_aux hwf (s.meas b + 1) b (Nat.lt_succ_self _)

theorem rnk_lt_root {s : CircuitManager} (hwf : WF s) {b p : JunctionBox}
    (h : lookupA s.parent b = some p) (hp : p ≠ b) : s.rnk b < s.rnk (s.rootOf b) := by
  have h1 : s.rnk b < s.rnk p := hwf.2.2.2 (b, p) (lookupA_mem h) hp
  have h2 : s.rnk p ≤ s.rnk (s.rootOf p) := rnk_le_rootOf hwf p
  rw [rootOf_step hwf h hp]
  omega

/-! ### Registration and path compression preserve the abstract partition -/

theorem register_rootD {s : CircuitManager} {b : JunctionBox}
    (hb : lookupA s.parent b = none) :
    ∀ (n : Nat) (x : JunctionBox),
      rootD ⟨updA s.parent b b, updA s.rank b 0⟩ n x = rootD s n x := by
  intro n
  induction n with
  | zero => intro x; rfl
  | succ n ih =>
    intro x
    by_cases hx : x = b
    · subst hx
      simp [rootD, lookupA_updA_self, hb]
    · have e := lookupA_updA_ne s.parent b x b hx
      cases hl : lookupA s.parent x with
      | none => simp [rootD, e, hl]
      | some p =>
        by_cases hp : p = x
        · simp [rootD, e, hl, hp]
        · simp only [rootD, e, hl, if_neg hp]
          exact ih p

theorem register_spec {s : CircuitManager} (hwf : WF s) {b : JunctionBox}
    (hb : lookupA s.parent b = none) :
    WF ⟨updA s.parent b b, updA s.rank b 0⟩ ∧
    (∀ x, CircuitManager.rootOf ⟨updA s.parent b b, updA s.rank b 0⟩ x = s.rootOf x) ∧
    CircuitManager.pkeys ⟨updA s.parent b b, updA s.rank b 0⟩ = s.pkeys ++ [b] ∧
    (∀ x, CircuitManager.rnk ⟨updA s.parent b b, updA s.rank b 0⟩ x = s.rnk x) := by
  have hbk : b ∉ s.pkeys := (lookupA_eq_none _ _).mp hb
  have hbr : b ∉ s.rank.map Prod.fst := by rw [hwf.2.1]; exact hbk
  have hpk : CircuitManager.pkeys ⟨updA s.parent b b, updA s.rank b 0⟩ = s.pkeys ++ [b] := by
    simp only [CircuitManager.pkeys]
    exact map_fst_updA_not_mem s.parent b b hbk
  have hlen : (updA s.parent b b).length = s.parent.length + 1 := by
    have h1 := congrArg List.length hpk
    simpa [CircuitManager.pkeys] using h1
  have hrnk : ∀ x, CircuitManager.rnk ⟨updA s.parent b b, updA s.rank b 0⟩ x = s.rnk x := by
    intro x
    by_cases hx : x = b
    · subst hx
      have h0 : lookupA s.rank x = none := (lookupA_eq_none s.rank x).mpr hbr
      simp [CircuitManager.rnk, lookupA_updA_self, h0]
    · simp [CircuitManager.rnk, lookupA_updA_ne s.rank b x 0 hx]
  have hroot : ∀ x, CircuitManager.rootOf ⟨updA s.parent b b, updA s.rank b 0⟩ x = s.rootOf x := by
    intro x
    have e1 : CircuitManager.rootOf ⟨updA s.parent b b, updA s.rank b 0⟩ x =
        rootD s (s.parent.length + 1 + 1) x := by
      rw [CircuitManager.rootOf]
      simp only [hlen]
      exact register_rootD hb _ x
    rw [e1, CircuitManager.rootOf]
    have hm := meas_le s x
    exact rootD_stable hwf _ _ x (by omega) (by omega)
  refine ⟨⟨?_, ?_, ?_, ?_⟩, hroot, hpk, hrnk⟩
  · rw [hpk, List.nodup_append]
    refine ⟨hwf.1, List.nodup_singleton b, fun a ha hb' => ?_⟩
    rw [List.mem_singleton.mp hb'] at ha
    exact hbk ha
  · show (updA s.rank b 0).map Prod.fst = _
    rw [map_fst_updA_not_mem s.rank b 0 hbr, hwf.2.1, hpk]
  · intro q hq
    rcases mem_updA hq with h1 | h2
    · rw [hpk, h1]
      simp
    · rw [hpk]
      exact List.mem_append_left _ (hwf.2.2.1 q h2)
  · intro q hq hne
    rcases mem_updA hq with h1 | h2
    · exfalso
      obtain ⟨q1, q2⟩ := q
      injection h1 with e1 e2
      subst e1
      subst e2
      exact hne rfl
    · rw [hrnk, hrnk]
      exact hwf.2.2.2 q h2 hne

theorem compress_rootD {s : CircuitManager} (hwf : WF s) {b p : JunctionBox}
    (hb : lookupA s.parent b = some p) (hp : p ≠ b) :
    ∀ (n : Nat) (x : JunctionBox), s.meas x < n →
      rootD ⟨updA s.parent b (s.rootOf b), s.rank⟩ n x = s.rootOf x := by
  have hbmem : b ∈ s.pkeys := List.mem_map_of_mem Prod.fst (lookupA_mem hb)
  have hrb : s.rnk b < s.rnk (s.rootOf b) := rnk_lt_root hwf hb hp
  have hrmem : s.rootOf b ∈ s.pkeys := rootOf_mem hwf hbmem
  have hrne : s.rootOf b ≠ b := fun h => absurd (h ▸ hrb) (lt_irrefl _)
  have hroot : lookupA s.parent (s.rootOf b) = some (s.rootOf b) := rootOf_root_self hwf hbmem
  intro n
  induction n with
  | zero => intro x hx; exact absurd hx (Nat.not_lt_zero _)
  | succ n ih =>
    intro x hx
    by_cases hxb : x = b
    · subst hxb
      have hm1 : 1 ≤ s.meas x := by
        apply Finset.card_pos.mpr
        exact ⟨s.rootOf x, by
          simp only [Finset.mem_filter, List.mem_toFinset]
          exact ⟨hrmem, hrb⟩⟩
      simp only [rootD, lookupA_updA_self, if_neg hrne]
      have e : lookupA (updA s.parent x (s.rootOf x)) (s.rootOf x) =
          lookupA s.parent (s.rootOf x) := lookupA_updA_ne s.parent x _ _ hrne
      exact rootD_self (s := ⟨updA s.parent x (s.rootOf x), s.rank⟩) (e.trans hroot) n (by omega)
    · have e := lookupA_updA_ne s.parent b x (s.rootOf b) hxb
      cases hl : lookupA s.parent x with
      | none => simp [rootD, e, hl, rootOf_absent hl]
      | some q =>
        by_cases hq : q = x
        · subst hq
          simp [rootD, e, hl, rootOf_self hl]
        · have hm : s.meas q < s.meas x := meas_lt hwf hl hq
          simp only [rootD, e, hl, if_neg hq]
          rw [ih q (by omega), rootOf_step hwf hl hq]

theorem compress_spec {s : CircuitManager} (hwf : WF s) {b p : JunctionBox}
    (hb : lookupA s.parent b = some p) (hp : p ≠ b) :
    WF ⟨updA s.parent b (s.rootOf b), s.rank⟩ ∧
    (∀ x, CircuitManager.rootOf ⟨updA s.parent b (s.rootOf b), s.rank⟩ x = s.rootOf x) ∧
    CircuitManager.pkeys ⟨updA s.parent b (s.rootOf b), s.rank⟩ = s.pkeys := by
  have hbmem : b ∈ s.pkeys := List.mem_map_of_mem Prod.fst (lookupA_mem hb)
  have hrb : s.rnk b < s.rnk (s.rootOf b) := rnk_lt_root hwf hb hp
  have hrmem : s.rootOf b ∈ s.pkeys := rootOf_mem hwf hbmem
  have hpk : CircuitManager.pkeys ⟨updA s.parent b (s.rootOf b), s.rank⟩ = s.pkeys := by
    simp only [CircuitManager.pkeys]
    exact map_fst_updA_mem s.parent b _ hbmem
  have hlen : (updA s.parent b (s.rootOf b)).length = s.parent.length := by
    have h1 := congrArg List.length hpk
    simpa [CircuitManager.pkeys] using h1
  have hroot : ∀ x, CircuitManager.rootOf ⟨updA s.parent b (s.rootOf b), s.rank⟩ x =
      s.rootOf x := by
    intro x
    rw [CircuitManager.rootOf]
    simp only [hlen]
    exact compress_rootD hwf hb hp _ x (by have := meas_le s x; omega)
  refine ⟨⟨?_, ?_, ?_, ?_⟩, hroot, hpk⟩
  · rw [hpk]; exact hwf.1
  · show s.rank.map Prod.fst = _
    rw [hwf.2.1, hpk]
  · intro q hq
    rcases mem_updA hq with h1 | h2
    · rw [hpk, h1]
      exact hrmem
    · rw [hpk]
      exact hwf.2.2.1 q h2
  · intro q hq hne
    rcases mem_updA hq with h1 | h2
    · obtain ⟨q1, q2⟩ := q
      injection h1 with e1 e2
      subst e1
      subst e2
      exact hrb
    · exact hwf.2.2.2 q h2 hne

/-! ### Correctness of `_find` -/

theorem findAux_spec {s : CircuitManager} (hwf : WF s) :
    ∀ (n : Nat) (b : JunctionBox), s.meas b < n →
      (CircuitManager.findAux n s b).1 = s.rootOf b ∧
      WF (CircuitManager.findAux n s b).2 ∧
      (∀ x, (CircuitManager.findAux n s b).2.rootOf x = s.rootOf x) ∧
      ((CircuitManager.findAux n s b).2.pkeys = if b ∈ s.pkeys then s.pkeys else s.pkeys ++ [b]) ∧
      ((CircuitManager.findAux n s b).2.rank = if b ∈ s.pkeys then s.rank else updA s.rank b 0) ∧
      (∀ x, s.rnk x < s.rnk b → lookupA (CircuitManager.findAux n s b).2.parent x = lookupA s.parent x) := by
  intro n
  induction n with
  | zero => intro b hb; exact absurd hb (Nat.not_lt_zero _)
  | succ n ih =>
    intro b hb
    cases hl : lookupA s.parent b with
    | none =>
      have heq : CircuitManager.findAux (n + 1) s b = (b, ⟨updA s.parent b b, updA s.rank b 0⟩) := by
        simp [CircuitManager.findAux, hl]
      have hbk : b ∉ s.pkeys := (lookupA_eq_none _ _).mp hl
      have hbr : b ∉ s.rank.map Prod.fst := by rw [hwf.2.1]; exact hbk
      have hrnk0 : s.rnk b = 0 := by
        simp [CircuitManager.rnk, (lookupA_eq_none s.rank b).mpr hbr]
      obtain ⟨w1, w2, w3, w4⟩ := register_spec hwf hl
      rw [heq]
      refine ⟨(rootOf_absent hl).symm, w1, w2, ?_, ?_, ?_⟩
      · rw [if_neg hbk]; exact w3
      · rw [if_neg hbk]
      · intro x hx
        rw [hrnk0] at hx
        exact absurd hx (Nat.not_lt_zero _)
    | some p =>
      have hbP : b ∈ s.pkeys := List.mem_map_of_mem Prod.fst (lookupA_mem hl)
      by_cases hp : p = b
      · have heq : CircuitManager.findAux (n + 1) s b = (b, s) := by
          simp [CircuitManager.findAux, hl, hp]
        have hroot : s.rootOf b = b := rootOf_self (hp ▸ hl)
        rw [heq]
        exact ⟨hroot.symm, hwf, fun x => rfl, by rw [if_pos hbP],
          by rw [if_pos hbP], fun x _ => rfl⟩
      · have hm : s.meas p < s.meas b := meas_lt hwf hl hp
        obtain ⟨ih1, ih2, ih3, ih4, ih5, ih6⟩ := ih p (by omega)
        have hpP : p ∈ s.pkeys := hwf.2.2.1 (b, p) (lookupA_mem hl)
        rw [if_pos hpP] at ih4 ih5
        have heq : CircuitManager.findAux (n + 1) s b =
            ((CircuitManager.findAux n s p).1,
              ⟨updA (CircuitManager.findAux n s p).2.parent b (CircuitManager.findAux n s p).1, (CircuitManager.findAux n s p).2.rank⟩) := by
          simp [CircuitManager.findAux, hl, hp]
        have hrkb : s.rnk b < s.rnk p := hwf.2.2.2 (b, p) (lookupA_mem hl) hp
        have hbp2 : lookupA (CircuitManager.findAux n s p).2.parent b = some p := by
          rw [ih6 b hrkb]; exact hl
        have e1 : (CircuitManager.findAux n s p).1 = (CircuitManager.findAux n s p).2.rootOf b := by
          rw [ih1, ih3 b, rootOf_step hwf hl hp]
        obtain ⟨c1, c2, c3⟩ := compress_spec ih2 hbp2 hp
        rw [heq, e1]
        refine ⟨ih3 b, c1, ?_, ?_, ?_, ?_⟩
        · exact fun x => (c2 x).trans (ih3 x)
        · exact c3.trans (ih4.trans (if_pos hbP).symm)
        · exact ih5.trans (if_pos hbP).symm
        · intro x hx
          have hxb : x ≠ b := fun h => absurd (h ▸ hx) (lt_irrefl _)
          exact (lookupA_updA_ne (CircuitManager.findAux n s p).2.parent b x _ hxb).trans
            (ih6 x (lt_trans hx hrkb))

theorem find_spec {s : CircuitManager} (hwf : WF s) (b : JunctionBox) :
    (s.find b).1 = s.rootOf b ∧
    WF (s.find b).2 ∧
    (∀ x, (s.find b).2.rootOf x = s.rootOf x) ∧
    ((s.find b).2.pkeys = if b ∈ s.pkeys then s.pkeys else s.pkeys ++ [b]) ∧
    ((s.find b).2.rank = if b ∈ s.pkeys then s.rank else updA s.rank b 0) := by
  obtain ⟨h1, h2, h3, h4, h5, _⟩ :=
    findAux_spec hwf (s.parent.length + 1) b (by have := meas_le s b; omega)
  exact ⟨h1, h2, h3, h4, h5⟩

theorem rnk_updA_fresh {s : CircuitManager} {b : JunctionBox}
    (hbr : b ∉ s.rank.map Prod.fst) (x : JunctionBox) :
    (lookupA (updA s.rank b 0) x).getD 0 = s.rnk x := by
  by_cases hx : x = b
  · subst hx
    have h0 : lookupA s.rank x = none := (lookupA_eq_none s.rank x).mpr hbr
    simp [CircuitManager.rnk, lookupA_updA_self, h0]
  · simp [CircuitManager.rnk, lookupA_updA_ne s.rank b x 0 hx]

theorem find_rnk {s : CircuitManager} (hwf : WF s) (b : JunctionBox) (x : JunctionBox) :
    (s.find b).2.rnk x = s.rnk x := by
  obtain ⟨_, _, _, _, h5⟩ := find_spec hwf b
  by_cases hb : b ∈ s.pkeys
  · rw [if_pos hb] at h5
    simp [CircuitManager.rnk, h5]
  · rw [if_neg hb] at h5
    have hbr : b ∉ s.rank.map Prod.fst := by rw [hwf.2.1]; exact hb
    show (lookupA (s.find b).2.rank x).getD 0 = s.rnk x
    rw [h5]
    exact rnk_updA_fresh hbr x

theorem find_pkeys_mono {s : CircuitManager} (hwf : WF s) (b : JunctionBox) {x : JunctionBox}
    (hx : x ∈ s.pkeys) : x ∈ (s.find b).2.pkeys := by
  obtain ⟨_, _, _, h4, _⟩ := find_spec hwf b
  rw [h4]
  by_cases hb : b ∈ s.pkeys
  · rw [if_pos hb]; exact hx
  · rw [if_neg hb]; exact List.mem_append_left _ hx

/-! ### Linking two roots: the merge step of `_union` -/

theorem link_rootD {s : CircuitManager} (hwf : WF s) {l w : JunctionBox} {R : List (JunctionBox × Nat)}
    (hl : lookupA s.parent l = some l) (hw : lookupA s.parent w = some w) (hlw : l ≠ w)
    (hRkeys : R.map Prod.fst = s.rank.map Prod.fst)
    (hRother : ∀ x, x ≠ w → (lookupA R x).getD 0 = s.rnk x)
    (hRw : s.rnk w ≤ (lookupA R w).getD 0)
    (hRlt : (lookupA R l).getD 0 < (lookupA R w).getD 0) :
    WF ⟨updA s.parent l w, R⟩ ∧
    CircuitManager.pkeys ⟨updA s.parent l w, R⟩ = s.pkeys ∧
    (∀ x, CircuitManager.rootOf ⟨updA s.parent l w, R⟩ x =
      if s.rootOf x = l then w else s.rootOf x) := by
  have hlmem : l ∈ s.pkeys := List.mem_map_of_mem Prod.fst (lookupA_mem hl)
  have hwmem : w ∈ s.pkeys := List.mem_map_of_mem Prod.fst (lookupA_mem hw)
  have hpk : CircuitManager.pkeys ⟨updA s.parent l w, R⟩ = s.pkeys := by
    simp only [CircuitManager.pkeys]
    exact map_fst_updA_mem s.parent l w hlmem
  have hwf2 : WF ⟨updA s.parent l w, R⟩ := by
    refine ⟨?_, ?_, ?_, ?_⟩
    · rw [hpk]; exact hwf.1
    · show R.map Prod.fst = _
      rw [hRkeys, hwf.2.1, hpk]
    · intro q hq
      rcases mem_updA hq with h1 | h2
      · rw [hpk]
        obtain ⟨q1, q2⟩ := q
        injection h1 with e1 e2
        subst e2
        exact hwmem
      · rw [hpk]
        exact hwf.2.2.1 q h2
    · intro q hq hne
      rcases mem_updA hq with h1 | h2
      · obtain ⟨q1, q2⟩ := q
        injection h1 with e1 e2
        subst e1
        subst e2
        exact hRlt
      · obtain ⟨q1, q2⟩ := q
        have hq1 : lookupA s.parent q1 = some q2 := mem_lookupA hwf.1 h2
        have hq1w : q1 ≠ w := by
          rintro rfl
          rw [hw] at hq1
          injection hq1 with e
          exact hne e.symm
        have hbase : s.rnk q1 < s.rnk q2 := hwf.2.2.2 (q1, q2) h2 hne
        show (lookupA R q1).getD 0 < (lookupA R q2).getD 0
        rw [hRother q1 hq1w]
        by_cases hq2 : q2 = w
        · subst hq2
          omega
        · rw [hRother q2 hq2]
          exact hbase
  have hlen : (updA s.parent l w).length = s.parent.length := by
    have h1 := congrArg List.length hpk
    simpa [CircuitManager.pkeys] using h1
  have hWne : lookupA (updA s.parent l w) w = some w := by
    rw [lookupA_updA_ne s.parent l w w (Ne.symm hlw)]
    exact hw
  have hmain : ∀ (n : Nat) (x : JunctionBox),
      CircuitManager.meas ⟨updA s.parent l w, R⟩ x < n →
      rootD ⟨updA s.parent l w, R⟩ n x = if s.rootOf x = l then w else s.rootOf x := by
    intro n
    induction n with
    | zero => intro x hx; exact absurd hx (Nat.not_lt_zero _)
    | succ n ih =>
      intro x hx
      by_cases hxl : x = l
      · rw [hxl] at hx ⊢
        have hwmem2 : w ∈ CircuitManager.pkeys ⟨updA s.parent l w, R⟩ := by
          rw [hpk]
          exact hwmem
        have hm1 : 1 ≤ CircuitManager.meas ⟨updA s.parent l w, R⟩ l := by
          apply Finset.card_pos.mpr
          refine ⟨w, ?_⟩
          simp only [Finset.mem_filter, List.mem_toFinset]
          exact ⟨hwmem2, hRlt⟩
        simp only [rootD, lookupA_updA_self, if_neg (Ne.symm hlw)]
        rw [rootD_self (s := ⟨updA s.parent l w, R⟩) hWne n (by omega)]
        rw [rootOf_self hl, if_pos rfl]
      · have e := lookupA_updA_ne s.parent l x w hxl
        cases hlk : lookupA s.parent x with
        | none =>
          have hax : s.rootOf x = x := rootOf_absent hlk
          simp [rootD, e, hlk, hax, hxl]
        | some q =>
          by_cases hq : q = x
          · have hlk2 : lookupA s.parent x = some x := by rw [hq] at hlk; exact hlk
            have hax : s.rootOf x = x := rootOf_self hlk2
            simp [rootD, e, hlk, hq, hax, hxl]
          · have hmq : CircuitManager.meas ⟨updA s.parent l w, R⟩ q <
                CircuitManager.meas ⟨updA s.parent l w, R⟩ x := by
              apply meas_lt hwf2
              · rw [e]; exact hlk
              · exact hq
            simp only [rootD, e, hlk, if_neg hq]
            rw [ih q (by omega), rootOf_step hwf hlk hq]
  refine ⟨hwf2, hpk, fun x => ?_⟩
  rw [CircuitManager.rootOf]
  simp only [hlen]
  apply hmain
  have := meas_le ⟨updA s.parent l w, R⟩ x
  simp only [hlen] at this
  omega

/-! ### Correctness of `_union` -/

theorem union_spec {s : CircuitManager} (hwf : WF s) (a b : JunctionBox) :
    WF (s.union a b).2 ∧
    (s.union a b).1 = !decide (s.rootOf a = s.rootOf b) ∧
    (s.union a b).2.pkeys = unionKeys s.pkeys a b ∧
    (s.union a b).2.rank = unionRank s.pkeys s.rank (s.rootOf a) (s.rootOf b) a b ∧
    (∀ x, (s.union a b).2.rootOf x =
      unionRoot s.pkeys s.rank (s.rootOf a) (s.rootOf b) a b (s.rootOf x)) := by
  obtain ⟨ha1, ha2, ha3, ha4, ha5⟩ := find_spec hwf a
  obtain ⟨hb1, hb2, hb3, hb4, hb5⟩ := find_spec ha2 b
  have hb1' : ((s.find a).2.find b).1 = s.rootOf b := hb1.trans (ha3 b)
  have hroots2 : ∀ x, ((s.find a).2.find b).2.rootOf x = s.rootOf x :=
    fun x => (hb3 x).trans (ha3 x)
  have hpk2 : ((s.find a).2.find b).2.pkeys = unionKeys s.pkeys a b := by
    rw [hb4, ha4]
    simp only [unionKeys]
  have hrank2 : ((s.find a).2.find b).2.rank = regRank s.pkeys s.rank a b := by
    rw [hb5, ha4, ha5]
    simp only [regRank]
  have hamem : a ∈ (s.find a).2.pkeys := by
    rw [ha4]
    by_cases h : a ∈ s.pkeys
    · rw [if_pos h]; exact h
    · rw [if_neg h]; exact List.mem_append_right _ (List.mem_singleton_self a)
  have hamem2 : a ∈ ((s.find a).2.find b).2.pkeys := find_pkeys_mono ha2 b hamem
  have hbmem2 : b ∈ ((s.find a).2.find b).2.pkeys := by
    rw [hb4]
    by_cases h : b ∈ (s.find a).2.pkeys
    · rw [if_pos h]; exact h
    · rw [if_neg h]; exact List.mem_append_right _ (List.mem_singleton_self b)
  have hra : lookupA ((s.find a).2.find b).2.parent (s.rootOf a) = some (s.rootOf a) := by
    have h := rootOf_root_self hb2 hamem2
    rwa [hroots2 a] at h
  have hrb : lookupA ((s.find a).2.find b).2.parent (s.rootOf b) = some (s.rootOf b) := by
    have h := rootOf_root_self hb2 hbmem2
    rwa [hroots2 b] at h
  simp only [CircuitManager.union, ha1, hb1']
  by_cases hr : s.rootOf a = s.rootOf b
  · rw [if_pos hr]
    refine ⟨hb2, by simp [hr], hpk2, ?_, ?_⟩
    · show ((s.find a).2.find b).2.rank = _
      simp only [unionRank]
      rw [if_pos hr]
      exact hrank2
    · intro x
      show ((s.find a).2.find b).2.rootOf x = _
      simp only [unionRoot]
      rw [if_pos hr]
      exact hroots2 x
  · rw [if_neg hr]
    by_cases h1 : ((s.find a).2.find b).2.rnk (s.rootOf a) <
        ((s.find a).2.find b).2.rnk (s.rootOf b)
    · rw [if_pos h1]
      have h1' : (lookupA (regRank s.pkeys s.rank a b) (s.rootOf a)).getD 0 <
          (lookupA (regRank s.pkeys s.rank a b) (s.rootOf b)).getD 0 := by
        rw [← hrank2]
        exact h1
      obtain ⟨w1, w2, w3⟩ :=
        link_rootD hb2 hra hrb hr rfl (fun x _ => rfl) (le_refl _) h1
      refine ⟨w1, by simp [hr], w2.trans hpk2, ?_, ?_⟩
      · show ((s.find a).2.find b).2.rank = _
        simp only [unionRank]
        rw [if_neg hr, if_pos h1']
        exact hrank2
      · intro x
        show CircuitManager.rootOf _ x = _
        rw [w3 x]
        simp only [unionRoot]
        rw [if_neg hr, if_pos h1']
        rw [hroots2 x]
    · rw [if_neg h1]
      by_cases h2 : ((s.find a).2.find b).2.rnk (s.rootOf b) <
          ((s.find a).2.find b).2.rnk (s.rootOf a)
      · rw [if_pos h2]
        have h1' : ¬ ((lookupA (regRank s.pkeys s.rank a b) (s.rootOf a)).getD 0 <
            (lookupA (regRank s.pkeys s.rank a b) (s.rootOf b)).getD 0) := by
          rw [← hrank2]
          exact h1
        have h2' : (lookupA (regRank s.pkeys s.rank a b) (s.rootOf b)).getD 0 <
            (lookupA (regRank s.pkeys s.rank a b) (s.rootOf a)).getD 0 := by
          rw [← hrank2]
          exact h2
        obtain ⟨w1, w2, w3⟩ :=
          link_rootD hb2 hrb hra (Ne.symm hr) rfl (fun x _ => rfl) (le_refl _) h2
        refine ⟨w1, by simp [hr], w2.trans hpk2, ?_, ?_⟩
        · show ((s.find a).2.find b).2.rank = _
          simp only [unionRank]
          rw [if_neg hr, if_neg h1', if_pos h2']
          exact hrank2
        · intro x
          show CircuitManager.rootOf _ x = _
          rw [w3 x]
          simp only [unionRoot]
          rw [if_neg hr, if_neg h1']
          rw [hroots2 x]
      · rw [if_neg h2]
        have heqr : ((s.find a).2.find b).2.rnk (s.rootOf b) =
            ((s.find a).2.find b).2.rnk (s.rootOf a) := by omega
        have h1' : ¬ ((lookupA (regRank s.pkeys s.rank a b) (s.rootOf a)).getD 0 <
            (lookupA (regRank s.pkeys s.rank a b) (s.rootOf b)).getD 0) := by
          rw [← hrank2]
          exact h1
        have hrmem : s.rootOf a ∈ ((s.find a).2.find b).2.pkeys := by
          have h := rootOf_mem hb2 hamem2
          rwa [hroots2 a] at h
        have hrkeys : (updA ((s.find a).2.find b).2.rank (s.rootOf a)
              (((s.find a).2.find b).2.rnk (s.rootOf a) + 1)).map Prod.fst =
            ((s.find a).2.find b).2.rank.map Prod.fst := by
          apply map_fst_updA_mem
          rw [hb2.2.1]
          exact hrmem
        have hother : ∀ x, x ≠ s.rootOf a →
            (lookupA (updA ((s.find a).2.find b).2.rank (s.rootOf a)
              (((s.find a).2.find b).2.rnk (s.rootOf a) + 1)) x).getD 0 =
            ((s.find a).2.find b).2.rnk x := by
          intro x hx
          rw [lookupA_updA_ne _ _ _ _ hx]
          rfl
        have hself : (lookupA (updA ((s.find a).2.find b).2.rank (s.rootOf a)
              (((s.find a).2.find b).2.rnk (s.rootOf a) + 1)) (s.rootOf a)).getD 0 =
            ((s.find a).2.find b).2.rnk (s.rootOf a) + 1 := by
          rw [lookupA_updA_self]
          rfl
        have hlt : (lookupA (updA ((s.find a).2.find b).2.rank (s.rootOf a)
              (((s.find a).2.find b).2.rnk (s.rootOf a) + 1)) (s.rootOf b)).getD 0 <
            (lookupA (updA ((s.find a).2.find b).2.rank (s.rootOf a)
              (((s.find a).2.find b).2.rnk (s.rootOf a) + 1)) (s.rootOf a)).getD 0 := by
          rw [hself, hother (s.rootOf b) (Ne.symm hr)]
          omega
        obtain ⟨w1, w2, w3⟩ :=
          link_rootD hb2 hrb hra (Ne.symm hr) hrkeys hother (by rw [hself]; omega) hlt
        refine ⟨w1, by simp [hr], w2.trans hpk2, ?_, ?_⟩
        · show updA ((s.find a).2.find b).2.rank (s.rootOf a) _ = _
          simp only [unionRank]
          rw [if_neg hr, if_neg h1', if_neg (by rw [← hrank2]; exact h2 :
            ¬ ((lookupA (regRank s.pkeys s.rank a b) (s.rootOf b)).getD 0 <
              (lookupA (regRank s.pkeys s.rank a b) (s.rootOf a)).getD 0))]
          rw [← hrank2]
          rfl
        · intro x
          show CircuitManager.rootOf _ x = _
          rw [w3 x]
          simp only [unionRoot]
          rw [if_neg hr, if_neg h1']
          rw [hroots2 x]

/-! ### Reachable states are well-formed; distilled `_union` corollaries -/

theorem WF_empty : WF emptyCM :=
  ⟨List.nodup_nil, rfl, fun p hp => absurd hp (List.not_mem_nil p), fun p hp =>
    absurd hp (List.not_mem_nil p)⟩

theorem WF_union {s : CircuitManager} (hwf : WF s) (a b : JunctionBox) :
    WF (s.union a b).2 :=
  (union_spec hwf a b).1

theorem WF_applyUnions (ops : List (JunctionBox × JunctionBox)) {s : CircuitManager}
    (hwf : WF s) : WF (CircuitManager.applyUnions ops s) := by
  induction ops generalizing s with
  | nil => exact hwf
  | cons op rest ih => exact ih (WF_union hwf op.1 op.2)

theorem union_same_root {s : CircuitManager} (hwf : WF s) {a b : JunctionBox}
    (hr : s.rootOf a = s.rootOf b) :
    (s.union a b).1 = false ∧ (∀ x, (s.union a b).2.rootOf x = s.rootOf x) := by
  obtain ⟨_, h2, _, _, h5⟩ := union_spec hwf a b
  constructor
  · rw [h2]
    simp [hr]
  · intro x
    rw [h5 x]
    simp only [unionRoot]
    rw [if_pos hr]

theorem union_diff_root {s : CircuitManager} (hwf : WF s) {a b : JunctionBox}
    (hr : s.rootOf a ≠ s.rootOf b) : (s.union a b).1 = true := by
  obtain ⟨_, h2, _, _, _⟩ := union_spec hwf a b
  rw [h2]
  simp [hr]

theorem union_pkeys_mono {s : CircuitManager} (hwf : WF s) (a b : JunctionBox)
    {x : JunctionBox} (hx : x ∈ s.pkeys) : x ∈ (s.union a b).2.pkeys := by
  obtain ⟨_, _, h3, _, _⟩ := union_spec hwf a b
  rw [h3]
  simp only [unionKeys]
  by_cases h1 : a ∈ s.pkeys
  · rw [if_pos h1]
    by_cases h2 : b ∈ s.pkeys
    · rw [if_pos h2]; exact hx
    · rw [if_neg h2]; exact List.mem_append_left _ hx
  · rw [if_neg h1]
    by_cases h2 : b ∈ s.pkeys ++ [a]
    · rw [if_pos h2]; exact List.mem_append_left _ hx
    · rw [if_neg h2]; exact List.mem_append_left _ (List.mem_append_left _ hx)

theorem union_rootOf_congr {s : CircuitManager} (hwf : WF s) (a b : JunctionBox)
    {x y : JunctionBox} (hxy : s.rootOf x = s.rootOf y) :
    (s.union a b).2.rootOf x = (s.union a b).2.rootOf y := by
  obtain ⟨_, _, _, _, h5⟩ := union_spec hwf a b
  rw [h5 x, h5 y, hxy]

/-! ### Value and frame of `are_all_boxes_connected` -/

theorem connCheck_spec {s : CircuitManager} (hwf : WF s) (r : JunctionBox)
    (bs : List JunctionBox) (hmem : ∀ b ∈ bs, b ∈ s.pkeys) :
    (connCheck r bs s).1 = bs.all (fun b => decide (s.rootOf b = r)) ∧
    WF (connCheck r bs s).2 ∧
    (connCheck r bs s).2.pkeys = s.pkeys ∧
    (connCheck r bs s).2.rank = s.rank ∧
    (∀ x, (connCheck r bs s).2.rootOf x = s.rootOf x) := by
  induction bs generalizing s with
  | nil => exact ⟨rfl, hwf, rfl, rfl, fun x => rfl⟩
  | cons b rest ih =>
    obtain ⟨f1, f2, f3, f4, f5⟩ := find_spec hwf b
    have hbmem : b ∈ s.pkeys := hmem b (List.mem_cons_self _ _)
    rw [if_pos hbmem] at f4 f5
    by_cases hcond : (s.find b).1 = r
    · have heq : connCheck r (b :: rest) s = connCheck r rest (s.find b).2 := by
        simp [connCheck, hcond]
      have hmem' : ∀ c ∈ rest, c ∈ (s.find b).2.pkeys := by
        intro c hc
        rw [f4]
        exact hmem c (List.mem_cons_of_mem _ hc)
      obtain ⟨g1, g2, g3, g4, g5⟩ := ih f2 hmem'
      rw [heq]
      refine ⟨?_, g2, g3.trans f4, g4.trans f5, fun x => (g5 x).trans (f3 x)⟩
      rw [g1]
      have hbr : s.rootOf b = r := by rw [← f1]; exact hcond
      simp only [List.all_cons, hbr, decide_True, Bool.true_and]
      congr 1
      funext c
      rw [f3 c]
    · have heq : connCheck r (b :: rest) s = (false, (s.find b).2) := by
        simp [connCheck, hcond]
      rw [heq]
      have hbr : ¬ s.rootOf b = r := by rw [← f1]; exact hcond
      refine ⟨?_, f2, f4, f5, f3⟩
      simp [hbr]

theorem allConnected_spec {s : CircuitManager} (hwf : WF s) (bs : List JunctionBox) :
    (s.are_all_boxes_connected bs).1 = connB s bs ∧
    WF (s.are_all_boxes_connected bs).2 ∧
    (s.are_all_boxes_connected bs).2.pkeys = s.pkeys ∧
    (s.are_all_boxes_connected bs).2.rank = s.rank ∧
    (∀ x, (s.are_all_boxes_connected bs).2.rootOf x = s.rootOf x) := by
  match bs with
  | [] => exact ⟨rfl, hwf, rfl, rfl, fun x => rfl⟩
  | [b] => exact ⟨rfl, hwf, rfl, rfl, fun x => rfl⟩
  | b0 :: b1 :: rest =>
    by_cases hany : (b0 :: b1 :: rest).any (fun b => (lookupA s.parent b).isNone)
    · have heq : s.are_all_boxes_connected (b0 :: b1 :: rest) = (false, s) := by
        simp only [CircuitManager.are_all_boxes_connected]
        rw [if_pos hany]
      have hnall : (b0 :: b1 :: rest).all (fun b => (lookupA s.parent b).isSome) = false := by
        obtain ⟨c, hc1, hc2⟩ := List.any_eq_true.mp hany
        apply List.all_eq_false.mpr
        exact ⟨c, hc1, by simp only [Option.isNone_iff_eq_none] at hc2; simp [hc2]⟩
      have hconn : connB s (b0 :: b1 :: rest) = false := by
        simp only [connB, hnall, Bool.false_and]
      exact heq ▸ ⟨hconn.symm, hwf, rfl, rfl, fun x => rfl⟩
    · have hall : ∀ c ∈ b0 :: b1 :: rest, c ∈ s.pkeys := by
        intro c hc
        have h := List.any_eq_false.mp (Bool.eq_false_iff.mpr hany) c hc
        show c ∈ s.parent.map Prod.fst
        rw [← lookupA_isSome]
        cases hl : lookupA s.parent c with
        | none => rw [hl] at h; simp at h
        | some v => rfl
      have heq : s.are_all_boxes_connected (b0 :: b1 :: rest) =
          connCheck (s.find b0).1 (b1 :: rest) (s.find b0).2 := by
        simp only [CircuitManager.are_all_boxes_connected]
        rw [if_neg hany]
      obtain ⟨f1, f2, f3, f4, f5⟩ := find_spec hwf b0
      have hb0 : b0 ∈ s.pkeys := hall b0 (List.mem_cons_self _ _)
      rw [if_pos hb0] at f4 f5
      have hmem' : ∀ c ∈ b1 :: rest, c ∈ (s.find b0).2.pkeys := by
        intro c hc
        rw [f4]
        exact hall c (List.mem_cons_of_mem _ hc)
      obtain ⟨g1, g2, g3, g4, g5⟩ := connCheck_spec f2 (s.find b0).1 (b1 :: rest) hmem'
      rw [heq]
      refine ⟨?_, g2, g3.trans f4, g4.trans f5, fun x => (g5 x).trans (f3 x)⟩
      rw [g1]
      have hallb : (b0 :: b1 :: rest).all (fun b => (lookupA s.parent b).isSome) = true := by
        apply List.all_eq_true.mpr
        intro c hc
        rw [lookupA_isSome]
        exact hall c hc
      simp only [connB, hallb, Bool.true_and]
      congr 1
      funext c
      rw [f3 c, f1]

/-! ### Congruence up to observational equivalence, and monotonicity -/

theorem StEq_refl (s : CircuitManager) : StEq s s := ⟨rfl, rfl, fun _ => rfl⟩

theorem StEq_trans {u v w : CircuitManager} (h1 : StEq u v) (h2 : StEq v w) : StEq u w :=
  ⟨h1.1.trans h2.1, h1.2.1.trans h2.2.1, fun x => (h1.2.2 x).trans (h2.2.2 x)⟩

theorem lookupA_isSome_congr {u v : CircuitManager} (h : StEq u v) (c : JunctionBox) :
    (lookupA u.parent c).isSome = (lookupA v.parent c).isSome := by
  have e : u.parent.map Prod.fst = v.parent.map Prod.fst := h.1
  cases h1 : (lookupA u.parent c).isSome with
  | true =>
    have hm : c ∈ v.parent.map Prod.fst := e ▸ (lookupA_isSome u.parent c).mp h1
    exact ((lookupA_isSome v.parent c).mpr hm).symm
  | false =>
    cases h2 : (lookupA v.parent c).isSome with
    | true =>
      have hm : c ∈ u.parent.map Prod.fst := e.symm ▸ (lookupA_isSome v.parent c).mp h2
      rw [(lookupA_isSome u.parent c).mpr hm] at h1
      exact absurd h1 (by simp)
    | false => rfl

theorem connB_congr {u v : CircuitManager} (h : StEq u v) (bs : List JunctionBox) :
    connB u bs = connB v bs := by
  match bs with
  | [] => rfl
  | [b] => rfl
  | b0 :: b1 :: rest =>
    simp only [connB]
    have e1 : ((b0 :: b1 :: rest).all fun b => (lookupA u.parent b).isSome) =
        ((b0 :: b1 :: rest).all fun b => (lookupA v.parent b).isSome) := by
      congr 1
      funext c
      exact lookupA_isSome_congr h c
    have e2 : ((b1 :: rest).all fun b => decide (u.rootOf b = u.rootOf b0)) =
        ((b1 :: rest).all fun b => decide (v.rootOf b = v.rootOf b0)) := by
      congr 1
      funext c
      rw [h.2.2 c, h.2.2 b0]
    rw [e1, e2]

theorem union_congr {u v : CircuitManager} (hu : WF u) (hv : WF v) (h : StEq u v)
    (a b : JunctionBox) :
    (u.union a b).1 = (v.union a b).1 ∧ StEq (u.union a b).2 (v.union a b).2 := by
  obtain ⟨u1, u2, u3, u4, u5⟩ := union_spec hu a b
  obtain ⟨v1, v2, v3, v4, v5⟩ := union_spec hv a b
  obtain ⟨hk, hr, hroot⟩ := h
  refine ⟨?_, ?_, ?_, ?_⟩
  · rw [u2, v2, hroot a, hroot b]
  · rw [u3, v3, hk]
  · rw [u4, v4, hk, hr, hroot a, hroot b]
  · intro x
    rw [u5 x, v5 x, hk, hr, hroot a, hroot b, hroot x]

theorem connB_union {s : CircuitManager} (hwf : WF s) (a b : JunctionBox)
    {bs : List JunctionBox} (h : connB s bs = true) : connB (s.union a b).2 bs = true := by
  match bs with
  | [] => rfl
  | [c] => rfl
  | b0 :: b1 :: rest =>
    simp only [connB, Bool.and_eq_true, List.all_eq_true] at h ⊢
    obtain ⟨h1, h2⟩ := h
    constructor
    · intro c hc
      have hcm : c ∈ s.pkeys := (lookupA_isSome s.parent c).mp (h1 c hc)
      exact (lookupA_isSome _ c).mpr (union_pkeys_mono hwf a b hcm)
    · intro c hc
      have hc0 : s.rootOf c = s.rootOf b0 := of_decide_eq_true (h2 c hc)
      exact decide_eq_true (union_rootOf_congr hwf a b hc0)

/-! ### The driver loop agrees with its pure specification -/

theorem connLoop_eq_aux (bs : List JunctionBox) :
    ∀ (pairs : List ((JunctionBox × JunctionBox) × Int)) (u v : CircuitManager),
      WF u → WF v → StEq u v → connLoop bs pairs u = firstCompleting bs pairs v := by
  intro pairs
  induction pairs with
  | nil => intro u v _ _ _; rfl
  | cons pd rest ih =>
    intro u v hu hv huv
    obtain ⟨pr, d⟩ := pd
    obtain ⟨a1, a2, a3, a4, a5⟩ := allConnected_spec hu bs
    have hbefore : (u.are_all_boxes_connected bs).1 = connB v bs :=
      a1.trans (connB_congr huv bs)
    have hstu1 : StEq (u.are_all_boxes_connected bs).2 v := StEq_trans ⟨a3, a4, a5⟩ huv
    obtain ⟨hb_eq, hst2⟩ := union_congr a2 hv hstu1 pr.1 pr.2
    have hu2 : WF ((u.are_all_boxes_connected bs).2.union pr.1 pr.2).2 := WF_union a2 pr.1 pr.2
    have hv' : WF (v.union pr.1 pr.2).2 := WF_union hv pr.1 pr.2
    obtain ⟨c1, c2, c3, c4, c5⟩ := allConnected_spec hu2 bs
    have hafter :
        ((((u.are_all_boxes_connected bs).2.union pr.1 pr.2).2.are_all_boxes_connected bs).1 =
          connB (v.union pr.1 pr.2).2 bs) := c1.trans (connB_congr hst2 bs)
    have hst3 : StEq
        ((((u.are_all_boxes_connected bs).2.union pr.1 pr.2).2.are_all_boxes_connected bs)).2
        (v.union pr.1 pr.2).2 := StEq_trans ⟨c3, c4, c5⟩ hst2
    simp only [connLoop, firstCompleting]
    rw [hbefore, hafter]
    by_cases hc : (!connB v bs && connB (v.union pr.1 pr.2).2 bs) = true
    · rw [if_pos hc, if_pos hc]
    · rw [if_neg hc, if_neg hc]
      exact ih _ _ c2 hv' hst3

theorem connLoop_eq_firstCompleting {s : CircuitManager} (hwf : WF s)
    (bs : List JunctionBox) (pairs : List ((JunctionBox × JunctionBox) × Int)) :
    connLoop bs pairs s = firstCompleting bs pairs s :=
  connLoop_eq_aux bs pairs s s hwf hwf (StEq_refl s)

theorem connLoop_append_of_some (bs : List JunctionBox) :
    ∀ (pairs : List ((JunctionBox × JunctionBox) × Int)) (s : CircuitManager)
      (pr : (JunctionBox × JunctionBox) × Int)
      (junk : List ((JunctionBox × JunctionBox) × Int)),
      connLoop bs pairs s = some pr → connLoop bs (pairs ++ junk) s = some pr := by
  intro pairs
  induction pairs with
  | nil => intro s pr junk h; exact absurd h (by simp [connLoop])
  | cons pd rest ih =>
    intro s pr junk h
    obtain ⟨pq, d⟩ := pd
    rw [List.cons_append]
    simp only [connLoop] at h ⊢
    by_cases hc : (!(s.are_all_boxes_connected bs).1 &&
        ((((s.are_all_boxes_connected bs).2.union pq.1 pq.2).2.are_all_boxes_connected bs)).1) =
        true
    · rw [if_pos hc] at h ⊢
      exact h
    · rw [if_neg hc] at h ⊢
      exact ih _ _ _ h

/-! ### Grouping registered boxes by root (`get_circuits`) -/

theorem addToGroup_keys (acc : List (JunctionBox × List JunctionBox)) (r b : JunctionBox) :
    (addToGroup acc r b).map Prod.fst =
      if r ∈ acc.map Prod.fst then acc.map Prod.fst else acc.map Prod.fst ++ [r] := by
  induction acc with
  | nil => simp [addToGroup]
  | cons g t ih =>
    obtain ⟨r', c⟩ := g
    by_cases h : r' = r
    · simp [addToGroup, h]
    · by_cases h2 : r ∈ t.map Prod.fst
      · simp [addToGroup, h, ih, h2, Ne.symm h]
      · simp [addToGroup, h, ih, h2, Ne.symm h]

theorem addToGroup_mem_root (f : JunctionBox → JunctionBox) :
    ∀ (acc : List (JunctionBox × List JunctionBox)) (r b : JunctionBox),
      (∀ g ∈ acc, ∀ x ∈ g.2, f x = g.1) → f b = r →
      ∀ g ∈ addToGroup acc r b, ∀ x ∈ g.2, f x = g.1 := by
  intro acc
  induction acc with
  | nil =>
    intro r b _ hb g hg x hx
    simp only [addToGroup, List.mem_singleton] at hg
    rw [hg] at hx ⊢
    simp only [List.mem_singleton] at hx
    rw [hx]
    exact hb
  | cons g0 t ih =>
    intro r b hacc hb g hg x hx
    obtain ⟨r', c⟩ := g0
    by_cases h : r' = r
    · simp only [addToGroup, if_pos h] at hg
      rcases List.mem_cons.mp hg with h1 | h2
      · rw [h1] at hx ⊢
        rcases List.mem_append.mp hx with h3 | h4
        · exact hacc (r', c) (List.mem_cons_self _ _) x h3
        · simp only [List.mem_singleton] at h4
          rw [h4, hb, h]
      · exact hacc g (List.mem_cons_of_mem _ h2) x hx
    · simp only [addToGroup, if_neg h] at hg
      rcases List.mem_cons.mp hg with h1 | h2
      · rw [h1] at hx ⊢
        exact hacc (r', c) (List.mem_cons_self _ _) x hx
      · exact ih r b (fun g' hg' => hacc g' (List.mem_cons_of_mem _ hg')) hb g h2 x hx

theorem addToGroup_join (acc : List (JunctionBox × List JunctionBox)) (r b : JunctionBox) :
    List.Perm ((addToGroup acc r b).map Prod.snd).join ((acc.map Prod.snd).join ++ [b]) := by
  induction acc with
  | nil => simp [addToGroup]
  | cons g t ih =>
    obtain ⟨r', c⟩ := g
    by_cases h : r' = r
    · simp only [addToGroup, if_pos h, List.map_cons, List.join_cons]
      rw [List.append_assoc, List.append_assoc]
      exact List.Perm.append_left c List.perm_append_comm
    · simp only [addToGroup, if_neg h, List.map_cons, List.join_cons]
      rw [List.append_assoc]
      exact List.Perm.append_left c ih

theorem groupLoop_spec :
    ∀ (bs : List JunctionBox) (s : CircuitManager) (acc : List (JunctionBox × List JunctionBox))
      (f : JunctionBox → JunctionBox),
      WF s → (∀ x, s.rootOf x = f x) → (∀ b ∈ bs, b ∈ s.pkeys) →
      (acc.map Prod.fst).Nodup → (∀ g ∈ acc, ∀ x ∈ g.2, f x = g.1) →
      ((groupLoop bs s acc).1.map Prod.fst).Nodup ∧
      (∀ g ∈ (groupLoop bs s acc).1, ∀ x ∈ g.2, f x = g.1) ∧
      List.Perm ((groupLoop bs s acc).1.map Prod.snd).join ((acc.map Prod.snd).join ++ bs) ∧
      WF (groupLoop bs s acc).2 ∧
      (groupLoop bs s acc).2.pkeys = s.pkeys ∧
      (∀ x, (groupLoop bs s acc).2.rootOf x = f x) := by
  intro bs
  induction bs with
  | nil =>
    intro s acc f hwf hf _ hnd hroot
    refine ⟨hnd, hroot, ?_, hwf, rfl, hf⟩
    rw [List.append_nil]
    exact List.Perm.refl _
  | cons b rest ih =>
    intro s acc f hwf hf hmem hnd hroot
    obtain ⟨f1, f2, f3, f4, f5⟩ := find_spec hwf b
    have hbmem : b ∈ s.pkeys := hmem b (List.mem_cons_self _ _)
    rw [if_pos hbmem] at f4 f5
    have e : (s.find b).1 = f b := f1.trans (hf b)
    have heq : groupLoop (b :: rest) s acc =
        groupLoop rest (s.find b).2 (addToGroup acc (f b) b) := by
      simp only [groupLoop]
      rw [e]
    have hf' : ∀ x, (s.find b).2.rootOf x = f x := fun x => (f3 x).trans (hf x)
    have hmem' : ∀ c ∈ rest, c ∈ (s.find b).2.pkeys := by
      intro c hc
      rw [f4]
      exact hmem c (List.mem_cons_of_mem _ hc)
    have hnd' : ((addToGroup acc (f b) b).map Prod.fst).Nodup := by
      rw [addToGroup_keys]
      by_cases h : f b ∈ acc.map Prod.fst
      · rw [if_pos h]; exact hnd
      · rw [if_neg h, List.nodup_append]
        refine ⟨hnd, List.nodup_singleton _, fun a ha hb' => ?_⟩
        rw [List.mem_singleton.mp hb'] at ha
        exact h ha
    have hroot' : ∀ g ∈ addToGroup acc (f b) b, ∀ x ∈ g.2, f x = g.1 :=
      addToGroup_mem_root f acc (f b) b hroot rfl
    obtain ⟨g1, g2, g3, g4, g5, g6⟩ := ih (s.find b).2 (addToGroup acc (f b) b) f f2 hf' hmem'
      hnd' hroot'
    rw [heq]
    refine ⟨g1, g2, ?_, g4, g5.trans f4, g6⟩
    have p2 := List.Perm.append_right rest (addToGroup_join acc (f b) b)
    have p3 : (acc.map Prod.snd).join ++ [b] ++ rest =
        (acc.map Prod.snd).join ++ (b :: rest) := by
      rw [List.append_assoc, List.singleton_append]
    rw [← p3]
    exact g3.trans p2

theorem get_circuits_spec {s : CircuitManager} (hwf : WF s) :
    List.Perm (s.get_circuits).1.join s.pkeys ∧
    List.Pairwise (fun c d => ∀ x ∈ c, x ∉ d) (s.get_circuits).1 ∧
    WF (s.get_circuits).2 := by
  obtain ⟨g1, g2, g3, g4, _, _⟩ :=
    groupLoop_spec s.pkeys s [] s.rootOf hwf (fun _ => rfl) (fun _ h => h) List.nodup_nil
      (fun g hg => absurd hg (List.not_mem_nil g))
  have hjoin : List.Perm (s.get_circuits).1.join s.pkeys := by
    have := g3
    simp only [List.map_nil, List.join_nil, List.nil_append] at this
    exact this
  refine ⟨hjoin, ?_, g4⟩
  have hne : List.Pairwise (fun g h : JunctionBox × List JunctionBox => g.1 ≠ h.1)
      (groupLoop s.pkeys s []).1 := (List.pairwise_map).mp g1
  have hdisj : List.Pairwise (fun g h : JunctionBox × List JunctionBox =>
      ∀ x ∈ g.2, x ∉ h.2) (groupLoop s.pkeys s []).1 := by
    refine List.Pairwise.imp_of_mem ?_ hne
    intro g h hg hh hne1 x hxg hxh
    exact hne1 ((g2 g hg x hxg).symm.trans (g2 h hh x hxh))
  exact (List.pairwise_map).mpr hdisj

/-! ### The pair selector -/

theorem pairsFrom_length (bs : List JunctionBox) :
    (pairsFrom bs).length = bs.length.choose 2 := by
  induction bs with
  | nil => simp [pairsFrom]
  | cons b rest ih =>
    simp only [pairsFrom, List.length_append, List.length_map, ih, List.length_cons]
    rw [Nat.choose_succ_succ, Nat.choose_one_right]

theorem fcp_sorted (bs : List JunctionBox) (n : Int) :
    List.Pairwise (fun p q : (JunctionBox × JunctionBox) × Int => p.2 ≤ q.2)
      (find_closest_pairs bs n) := by
  unfold find_closest_pairs
  by_cases h1 : bs.length < 2
  · rw [if_pos h1]
    exact List.Pairwise.nil
  · rw [if_neg h1]
    by_cases h2 : n ≤ 0
    · rw [if_pos h2]
      exact List.Pairwise.nil
    · rw [if_neg h2]
      have hs : List.Sorted (fun p q : Int × (JunctionBox × JunctionBox) => p.1 ≤ q.1)
          ((pairsFrom bs).insertionSort (fun p q => p.1 ≤ q.1)) :=
        List.sorted_insertionSort _ _
      have ht : List.Pairwise (fun p q : Int × (JunctionBox × JunctionBox) => p.1 ≤ q.1)
          (((pairsFrom bs).insertionSort (fun p q => p.1 ≤ q.1)).take n.toNat) :=
        List.Pairwise.sublist (List.take_sublist _ _) hs
      exact (List.pairwise_map).mpr ht

theorem fcp_decomp (bs : List JunctionBox) (n : Int) :
    ∃ rest, List.Perm (find_closest_pairs bs n ++ rest)
        ((pairsFrom bs).map (fun dp => (dp.2, dp.1))) ∧
      ∀ p ∈ find_closest_pairs bs n, ∀ q ∈ rest, p.2 ≤ q.2 := by
  unfold find_closest_pairs
  by_cases h1 : bs.length < 2
  · rw [if_pos h1]
    exact ⟨(pairsFrom bs).map (fun dp => (dp.2, dp.1)), by simp,
      fun p hp => absurd hp (List.not_mem_nil p)⟩
  · rw [if_neg h1]
    by_cases h2 : n ≤ 0
    · rw [if_pos h2]
      exact ⟨(pairsFrom bs).map (fun dp => (dp.2, dp.1)), by simp,
        fun p hp => absurd hp (List.not_mem_nil p)⟩
    · rw [if_neg h2]
      refine ⟨((((pairsFrom bs).insertionSort (fun p q => p.1 ≤ q.1)).drop n.toNat).map
        (fun dp => (dp.2, dp.1))), ?_, ?_⟩
      · rw [← List.map_append, List.take_append_drop]
        exact List.Perm.map _ (List.perm_insertionSort _ _)
      · intro p hp q hq
        obtain ⟨a, ha, hpa⟩ := List.mem_map.mp hp
        obtain ⟨c, hc, hqc⟩ := List.mem_map.mp hq
        have hs : List.Pairwise (fun p q : Int × (JunctionBox × JunctionBox) => p.1 ≤ q.1)
            ((pairsFrom bs).insertionSort (fun p q => p.1 ≤ q.1)) :=
          List.sorted_insertionSort _ _
        rw [← List.take_append_drop n.toNat
          ((pairsFrom bs).insertionSort (fun p q => p.1 ≤ q.1))] at hs
        have hac : a.1 ≤ c.1 := (List.pairwise_append.mp hs).2.2 a ha c hc
        rw [← hpa, ← hqc]
        exact hac

theorem fcp_length {bs : List JunctionBox} {n : Int} (h1 : 2 ≤ bs.length) (h2 : 0 < n) :
    (find_closest_pairs bs n).length = min n.toNat (bs.length.choose 2) := by
  unfold find_closest_pairs
  rw [if_neg (by omega), if_neg (by omega)]
  simp only [List.length_map, List.length_take]
  rw [(List.perm_insertionSort (fun p q : Int × (JunctionBox × JunctionBox) => p.1 ≤ q.1)
    (pairsFrom bs)).length_eq, pairsFrom_length]

theorem fcp_degenerate {bs : List JunctionBox} {n : Int} (h : n ≤ 0 ∨ bs.length < 2) :
    find_closest_pairs bs n = [] := by
  unfold find_closest_pairs
  rcases h with h | h
  · by_cases h1 : bs.length < 2
    · rw [if_pos h1]
    · rw [if_neg h1, if_pos h]
  · rw [if_pos h]

/-! ### Top-3 circuit sizes -/

theorem get_circuits_empty {s : CircuitManager} (h : s.parent = []) :
    (s.get_circuits).1 = [] := by
  have hk : s.pkeys = [] := by simp [CircuitManager.pkeys, h]
  simp [CircuitManager.get_circuits, hk, groupLoop]

theorem get_top3_spec (s : CircuitManager) :
    ∃ sortedSizes : List Nat,
      List.Perm sortedSizes ((s.get_circuits).1.map List.length) ∧
      List.Pairwise (fun a b => b ≤ a) sortedSizes ∧
      (s.get_top_3_circuit_lengths).1 = sortedSizes.take 3 ∧
      (s.get_top_3_circuit_lengths).1.length = min 3 (s.get_circuits).1.length := by
  by_cases h : (s.get_circuits).1 = []
  · refine ⟨[], by simp [h], List.Pairwise.nil, ?_, ?_⟩
    · simp [CircuitManager.get_top_3_circuit_lengths, h]
    · simp [CircuitManager.get_top_3_circuit_lengths, h]
  · refine ⟨((s.get_circuits).1.map List.length).insertionSort (fun a b => b ≤ a),
      List.perm_insertionSort _ _, List.sorted_insertionSort _ _, ?_, ?_⟩
    · simp only [CircuitManager.get_top_3_circuit_lengths]
      rw [if_neg h]
    · simp only [CircuitManager.get_top_3_circuit_lengths]
      rw [if_neg h]
      show (List.take 3 _).length = _
      rw [List.length_take, (List.perm_insertionSort _ _).length_eq, List.length_map]

theorem connB_applyUnions {s : CircuitManager} (hwf : WF s)
    (ops : List (JunctionBox × JunctionBox)) {bs : List JunctionBox}
    (h : connB s bs = true) :
    connB (CircuitManager.applyUnions ops s) bs = true := by
  induction ops generalizing s with
  | nil => exact h
  | cons op rest ih =>
    show connB (CircuitManager.applyUnions rest (s.union op.1 op.2).2) bs = true
    exact ih (WF_union hwf op.1 op.2) (connB_union hwf op.1 op.2 h)

theorem allConnected_absent (s : CircuitManager) (bs : List JunctionBox)
    (hlen : 2 ≤ bs.length) (habs : ∃ b ∈ bs, lookupA s.parent b = none) :
    s.are_all_boxes_connected bs = (false, s) := by
  match bs, hlen with
  | b0 :: b1 :: rest, _ =>
    have hany : (b0 :: b1 :: rest).any (fun b => (lookupA s.parent b).isNone) = true := by
      apply List.any_eq_true.mpr
      obtain ⟨b, hb1, hb2⟩ := habs
      exact ⟨b, hb1, by simp [hb2]⟩
    simp only [CircuitManager.are_all_boxes_connected]
    rw [if_pos hany]

/-! ### Claims -/

/-- C1: for every list of distinct points and every integer `k`,
`find_closest_pairs` returns exactly `min(k, C(m,2))` pairs when `k > 0`
and `m ≥ 2`, the empty list when `k ≤ 0` or `m < 2`, and the returned
pairs are precisely the smallest-squared-distance pairs among all
`C(m,2)` candidates (they extend, up to tie order, to a permutation of
the full candidate list in which every kept pair is at most every
dropped pair), listed in non-decreasing order of squared distance. -/
theorem C1_closest_pairs_correct (bs : List JunctionBox) (k : Int) (hnd : bs.Nodup) :
    ((0 < k ∧ 2 ≤ bs.length) →
      (find_closest_pairs bs k).length = min k.toNat (bs.length.choose 2)) ∧
    ((k ≤ 0 ∨ bs.length < 2) → find_closest_pairs bs k = []) ∧
    List.Pairwise (fun p q : (JunctionBox × JunctionBox) × Int => p.2 ≤ q.2)
      (find_closest_pairs bs k) ∧
    (∃ rest, List.Perm (find_closest_pairs bs k ++ rest)
        ((pairsFrom bs).map (fun dp => (dp.2, dp.1))) ∧
      ∀ p ∈ find_closest_pairs bs k, ∀ q ∈ rest, p.2 ≤ q.2) :=
  ⟨fun h => fcp_length h.2 h.1, fun h => fcp_degenerate h, fcp_sorted bs k, fcp_decomp bs k⟩

/-- C1 witness: the theorem applied to the three collinear points of the
spec scenario with `k = 2`. -/
theorem C1_closest_pairs_correct_witness :
    ([⟨0,0,0⟩, ⟨0,0,1⟩, ⟨0,0,10⟩] : List JunctionBox).Nodup ∧
    (((0 < (2 : Int) ∧ 2 ≤ ([⟨0,0,0⟩, ⟨0,0,1⟩, ⟨0,0,10⟩] : List JunctionBox).length) →
      (find_closest_pairs [⟨0,0,0⟩, ⟨0,0,1⟩, ⟨0,0,10⟩] 2).length =
        min (2 : Int).toNat
          (([⟨0,0,0⟩, ⟨0,0,1⟩, ⟨0,0,10⟩] : List JunctionBox).length.choose 2)) ∧
    (((2 : Int) ≤ 0 ∨ ([⟨0,0,0⟩, ⟨0,0,1⟩, ⟨0,0,10⟩] : List JunctionBox).length < 2) →
      find_closest_pairs [⟨0,0,0⟩, ⟨0,0,1⟩, ⟨0,0,10⟩] 2 = []) ∧
    List.Pairwise (fun p q : (JunctionBox × JunctionBox) × Int => p.2 ≤ q.2)
      (find_closest_pairs [⟨0,0,0⟩, ⟨0,0,1⟩, ⟨0,0,10⟩] 2) ∧
    (∃ rest, List.Perm (find_closest_pairs [⟨0,0,0⟩, ⟨0,0,1⟩, ⟨0,0,10⟩] 2 ++ rest)
        ((pairsFrom [⟨0,0,0⟩, ⟨0,0,1⟩, ⟨0,0,10⟩]).map (fun dp => (dp.2, dp.1))) ∧
      ∀ p ∈ find_closest_pairs [⟨0,0,0⟩, ⟨0,0,1⟩, ⟨0,0,10⟩] 2, ∀ q ∈ rest, p.2 ≤ q.2)) :=
  ⟨by decide, C1_closest_pairs_correct [⟨0,0,0⟩, ⟨0,0,1⟩, ⟨0,0,10⟩] 2 (by decide)⟩

/-- C2: the driver loop reports exactly the first pair whose union flips
the connectivity value of the full point list from false to true
(`firstCompleting`, which threads only the union state and returns `none`
when the pair stream is exhausted before full connectivity), and once a
completing pair is reported, pairs appended after the scanned prefix
cannot change the result (no further pairs are scanned). -/
theorem C2_driver_completing_pair (bs : List JunctionBox)
    (pairs : List ((JunctionBox × JunctionBox) × Int)) (s : CircuitManager) (hwf : WF s) :
    connLoop bs pairs s = firstCompleting bs pairs s ∧
    ∀ pr junk, connLoop bs pairs s = some pr → connLoop bs (pairs ++ junk) s = some pr :=
  ⟨connLoop_eq_firstCompleting hwf bs pairs,
   fun pr junk h => connLoop_append_of_some bs pairs s pr junk h⟩

/-- C2 witness: the theorem applied to the spec's triangle scenario with
a fresh manager. -/
theorem C2_driver_completing_pair_witness :
    WF emptyCM ∧
    (connLoop [⟨0,0,0⟩, ⟨0,0,1⟩, ⟨0,0,10⟩]
        [((⟨0,0,0⟩, ⟨0,0,1⟩), 1), ((⟨0,0,1⟩, ⟨0,0,10⟩), 81)] emptyCM =
      firstCompleting [⟨0,0,0⟩, ⟨0,0,1⟩, ⟨0,0,10⟩]
        [((⟨0,0,0⟩, ⟨0,0,1⟩), 1), ((⟨0,0,1⟩, ⟨0,0,10⟩), 81)] emptyCM ∧
    ∀ pr junk, connLoop [⟨0,0,0⟩, ⟨0,0,1⟩, ⟨0,0,10⟩]
        [((⟨0,0,0⟩, ⟨0,0,1⟩), 1), ((⟨0,0,1⟩, ⟨0,0,10⟩), 81)] emptyCM = some pr →
      connLoop [⟨0,0,0⟩, ⟨0,0,1⟩, ⟨0,0,10⟩]
        ([((⟨0,0,0⟩, ⟨0,0,1⟩), 1), ((⟨0,0,1⟩, ⟨0,0,10⟩), 81)] ++ junk) emptyCM = some pr) :=
  ⟨by decide, C2_driver_completing_pair _ _ _ (by decide)⟩

/-- C3: `get_top_3_circuit_lengths` returns the first three entries of a
descending sort of all circuit sizes (the three largest, descending; all
of them, still descending, when fewer than three circuits exist), the
empty list when no points were ever registered, and on the concrete
four-point/two-pair scenario it returns `[2, 2]`. -/
theorem C3_top3_circuit_lengths (ops : List (JunctionBox × JunctionBox)) :
    (∃ sortedSizes : List Nat,
      List.Perm sortedSizes
        (((CircuitManager.applyUnions ops emptyCM).get_circuits).1.map List.length) ∧
      List.Pairwise (fun a b => b ≤ a) sortedSizes ∧
      ((CircuitManager.applyUnions ops emptyCM).get_top_3_circuit_lengths).1 =
        sortedSizes.take 3 ∧
      ((CircuitManager.applyUnions ops emptyCM).get_top_3_circuit_lengths).1.length =
        min 3 ((CircuitManager.applyUnions ops emptyCM).get_circuits).1.length) ∧
    ((CircuitManager.applyUnions ops emptyCM).parent = [] →
      ((CircuitManager.applyUnions ops emptyCM).get_top_3_circuit_lengths).1 = []) ∧
    ((CircuitManager.applyUnions [(⟨0,0,0⟩, ⟨0,0,1⟩), (⟨100,0,0⟩, ⟨100,0,1⟩)]
      emptyCM).get_top_3_circuit_lengths).1 = [2, 2] := by
  obtain ⟨ss, p1, p2, p3, p4⟩ := get_top3_spec (CircuitManager.applyUnions ops emptyCM)
  refine ⟨⟨ss, p1, p2, p3, p4⟩, ?_, by decide⟩
  intro hparent
  rw [p3]
  have hempty : ((CircuitManager.applyUnions ops emptyCM).get_circuits).1 = [] :=
    get_circuits_empty hparent
  have hss : ss = [] := List.Perm.eq_nil (by rw [hempty] at p1; simpa using p1)
  rw [hss]
  rfl

/-- C4: in every well-formed partition state in which `a` and `b`
already share a root, `_union a b` returns `false` and does not change
the root `_find` resolves for any box (only path compression occurs). -/
theorem C4_union_idempotent (s : CircuitManager) (a b : JunctionBox) (hwf : WF s)
    (hr : s.rootOf a = s.rootOf b) :
    (s.union a b).1 = false ∧ ∀ x, (s.union a b).2.rootOf x = s.rootOf x :=
  union_same_root hwf hr

/-- C4 witness: the theorem applied right after a first `_union` of the
same two boxes, so the repeated call is a no-op. -/
theorem C4_union_idempotent_witness :
    WF ((emptyCM.union ⟨0,0,0⟩ ⟨1,1,1⟩).2) ∧
    ((emptyCM.union ⟨0,0,0⟩ ⟨1,1,1⟩).2).rootOf ⟨0,0,0⟩ =
      ((emptyCM.union ⟨0,0,0⟩ ⟨1,1,1⟩).2).rootOf ⟨1,1,1⟩ ∧
    ((((emptyCM.union ⟨0,0,0⟩ ⟨1,1,1⟩).2).union ⟨0,0,0⟩ ⟨1,1,1⟩).1 = false ∧
      ∀ x, (((emptyCM.union ⟨0,0,0⟩ ⟨1,1,1⟩).2).union ⟨0,0,0⟩ ⟨1,1,1⟩).2.rootOf x =
        ((emptyCM.union ⟨0,0,0⟩ ⟨1,1,1⟩).2).rootOf x) :=
  ⟨by decide, by decide, C4_union_idempotent _ _ _ (by decide) (by decide)⟩

/-- C5: once `are_all_boxes_connected` returns true for the full point
list in a well-formed state, it returns true again after every further
sequence of `_union` calls, whatever their arguments: connectivity, once
achieved, is never lost. -/
theorem C5_connectivity_monotonic (s : CircuitManager) (bs : List JunctionBox)
    (hwf : WF s) (h : (s.are_all_boxes_connected bs).1 = true)
    (ops : List (JunctionBox × JunctionBox)) :
    ((CircuitManager.applyUnions ops
      (s.are_all_boxes_connected bs).2).are_all_boxes_connected bs).1 = true := by
  obtain ⟨a1, a2, a3, a4, a5⟩ := allConnected_spec hwf bs
  have hc : connB s bs = true := a1.symm.trans h
  have hc1 : connB (s.are_all_boxes_connected bs).2 bs = true :=
    (connB_congr ⟨a3, a4, a5⟩ bs).trans hc
  have hfinal : connB (CircuitManager.applyUnions ops
      (s.are_all_boxes_connected bs).2) bs = true := connB_applyUnions a2 ops hc1
  obtain ⟨b1, _, _, _, _⟩ := allConnected_spec (WF_applyUnions ops a2) bs
  exact b1.trans hfinal

/-- C5 witness: two boxes unioned and fully connected; connectivity
survives a further unrelated union. -/
theorem C5_connectivity_monotonic_witness :
    WF ((emptyCM.union ⟨0,0,0⟩ ⟨0,0,1⟩).2) ∧
    (((emptyCM.union ⟨0,0,0⟩ ⟨0,0,1⟩).2).are_all_boxes_connected
      [⟨0,0,0⟩, ⟨0,0,1⟩]).1 = true ∧
    ((CircuitManager.applyUnions [(⟨5,5,5⟩, ⟨6,6,6⟩)]
        ((((emptyCM.union ⟨0,0,0⟩ ⟨0,0,1⟩).2).are_all_boxes_connected
          [⟨0,0,0⟩, ⟨0,0,1⟩]).2)).are_all_boxes_connected [⟨0,0,0⟩, ⟨0,0,1⟩]).1 = true :=
  ⟨by decide, by decide, C5_connectivity_monotonic _ _ (by decide) (by decide) _⟩

/-- C6: after any sequence of `_union` operations from a fresh manager,
`get_circuits` returns pairwise-disjoint circuits whose union is exactly
the set of registered points, so the circuit sizes sum to the number of
distinct points ever registered. -/
theorem C6_partition_conservation (ops : List (JunctionBox × JunctionBox)) :
    List.Pairwise (fun c d => ∀ x ∈ c, x ∉ d)
      ((CircuitManager.applyUnions ops emptyCM).get_circuits).1 ∧
    (∀ b, (∃ c ∈ ((CircuitManager.applyUnions ops emptyCM).get_circuits).1, b ∈ c) ↔
      b ∈ (CircuitManager.applyUnions ops emptyCM).pkeys) ∧
    ((((CircuitManager.applyUnions ops emptyCM).get_circuits).1.map List.length).sum =
      (CircuitManager.applyUnions ops emptyCM).pkeys.length) ∧
    (CircuitManager.applyUnions ops emptyCM).pkeys.Nodup := by
  have hwf := WF_applyUnions ops WF_empty
  obtain ⟨hjoin, hdisj, _⟩ := get_circuits_spec hwf
  refine ⟨hdisj, ?_, ?_, hwf.1⟩
  · intro b
    rw [← hjoin.mem_iff]
    exact (List.mem_join).symm
  · rw [← List.length_join]
    exact hjoin.length_eq

/-- C7: `are_all_boxes_connected` returns true for the empty list and
for every one-element list, in every partition state — including when
the single listed point was never registered. -/
theorem C7_trivial_connectivity (s : CircuitManager) (b : JunctionBox) :
    (s.are_all_boxes_connected []).1 = true ∧
    (s.are_all_boxes_connected [b]).1 = true :=
  ⟨rfl, rfl⟩

/-- C8 counterexample: a one-element list whose point is absent from the
parent map yields true, not false — refuting the claim that absence
forces a false result even for singleton lists. -/
theorem C8_absent_counterexample :
    lookupA emptyCM.parent ⟨0,0,0⟩ = none ∧
    (emptyCM.are_all_boxes_connected [⟨0,0,0⟩]).1 = true := by decide

/-- C8 (amended): `are_all_boxes_connected` returns false whenever the
argument list has at least two points and any of them is absent from the
union-find parent map; for lists of at most one point it returns true
regardless of registration. -/
theorem C8_absent_amended (s : CircuitManager) (bs : List JunctionBox)
    (hlen : 2 ≤ bs.length) (habs : ∃ b ∈ bs, lookupA s.parent b = none) :
    (s.are_all_boxes_connected bs).1 = false := by
  rw [allConnected_absent s bs hlen habs]

/-- C8 witness: a two-point list with both points unregistered. -/
theorem C8_absent_amended_witness :
    2 ≤ ([⟨0,0,0⟩, ⟨9,9,9⟩] : List JunctionBox).length ∧
    (∃ b ∈ ([⟨0,0,0⟩, ⟨9,9,9⟩] : List JunctionBox), lookupA emptyCM.parent b = none) ∧
    (emptyCM.are_all_boxes_connected [⟨0,0,0⟩, ⟨9,9,9⟩]).1 = false :=
  ⟨by decide, by decide, C8_absent_amended _ _ (by decide) (by decide)⟩

/-- C9 counterexample: three collinear equally spaced points give two
selected pairs with the same squared distance 1, refuting strict
ascent (no two returned pairs may share a squared distance). -/
theorem C9_strict_counterexample :
    ¬ List.Pairwise (fun p q : (JunctionBox × JunctionBox) × Int => p.2 ≠ q.2)
      (find_closest_pairs [⟨0,0,0⟩, ⟨0,0,1⟩, ⟨0,0,2⟩] 2) := by decide

/-- C9 (amended): the list returned by `find_closest_pairs` is sorted in
non-decreasing (not necessarily strictly increasing) order of squared
distance, for every input list and count. -/
theorem C9_nondecreasing_amended (bs : List JunctionBox) (n : Int) :
    List.Pairwise (fun p q : (JunctionBox × JunctionBox) × Int => p.2 ≤ q.2)
      (find_closest_pairs bs n) :=
  fcp_sorted bs n

/-- C10 counterexample: with an unregistered listed box the call does
not always return false — a singleton list returns true (the state is
unchanged, but the claimed false result is wrong). -/
theorem C10_frame_counterexample :
    lookupA emptyCM.parent ⟨1,2,3⟩ = none ∧
    (emptyCM.are_all_boxes_connected [⟨1,2,3⟩]).1 = true := by decide

/-- C10 (amended): `are_all_boxes_connected` never registers new points —
the key lists of the parent and rank maps are unchanged by the call in
every well-formed state — and when the list has at least two points and
some listed box is unregistered, the call returns false with the state
entirely unchanged (no path compression either). -/
theorem C10_frame_amended (s : CircuitManager) (bs : List JunctionBox) (hwf : WF s) :
    ((s.are_all_boxes_connected bs).2.pkeys = s.pkeys ∧
      (s.are_all_boxes_connected bs).2.rank.map Prod.fst = s.rank.map Prod.fst) ∧
    (2 ≤ bs.length → (∃ b ∈ bs, lookupA s.parent b = none) →
      s.are_all_boxes_connected bs = (false, s)) := by
  obtain ⟨_, _, h3, h4, _⟩ := allConnected_spec hwf bs
  exact ⟨⟨h3, by rw [h4]⟩, fun hlen habs => allConnected_absent s bs hlen habs⟩

/-- C10 witness: the amended theorem applied to a fresh manager and a
two-point list of unregistered boxes. -/
theorem C10_frame_amended_witness :
    WF emptyCM ∧
    (((emptyCM.are_all_boxes_connected [⟨0,0,0⟩, ⟨7,7,7⟩]).2.pkeys = emptyCM.pkeys ∧
      (emptyCM.are_all_boxes_connected [⟨0,0,0⟩, ⟨7,7,7⟩]).2.rank.map Prod.fst =
        emptyCM.rank.map Prod.fst) ∧
    (2 ≤ ([⟨0,0,0⟩, ⟨7,7,7⟩] : List JunctionBox).length →
      (∃ b ∈ ([⟨0,0,0⟩, ⟨7,7,7⟩] : List JunctionBox), lookupA emptyCM.parent b = none) →
      emptyCM.are_all_boxes_connected [⟨0,0,0⟩, ⟨7,7,7⟩] = (false, emptyCM))) :=
  ⟨by decide, C10_frame_amended _ _ (by decide)⟩
